import Mathlib

/-!
Verification of the AVL-tree engine of this repository
(`src/_sandbox/avl_tree/src/main.rs`, plus the plain BST variant in
`src/_sandbox/avl_tree/src/AVL_rc.rs`).

The Rust code mutates trees in place; the shallow embedding below turns every
mutating method into a function from the old tree to the new tree.  A Rust
method that can panic (a failed `assert!`, an `unwrap` of a `Leaf`, or an
explicit `panic!` branch) is embedded as a function into `Option`, where
`none` is the panic outcome.  Cached node heights are `i32` in the source and
are embedded as `Int` (the operations keep heights below any overflow bound,
and no claim concerns `i32` wrap-around).
-/

/-- `enum AVL<A> { Leaf, Node(Box<AVL<A>>, A, Box<AVL<A>>, i32) }` -/
inductive AVL (α : Type) where
  | Leaf : AVL α
  | Node : AVL α → α → AVL α → Int → AVL α
deriving DecidableEq

namespace AVL

variable {α : Type} [LinearOrder α]

/-- `AVL::height`: read the cached height (0 for a leaf). -/
def height : AVL α → Int
  | .Leaf => 0
  | .Node _ _ _ h => h

/-- `AVL::node`: build a node, computing its cached height from the
children's cached heights. -/
def node (l : AVL α) (v : α) (r : AVL α) : AVL α :=
  .Node l v r (max (height l) (height r) + 1)

/-- `AVL::new` -/
def new : AVL α := .Leaf

/-- `AVL::singleton` -/
def singleton (v : α) : AVL α :=
  node .Leaf v .Leaf

/-- `AVL::get_leftmost` -/
def get_leftmost : AVL α → Option α
  | .Leaf => none
  | .Node l v _ _ =>
    match get_leftmost l with
    | some m => some m
    | none => some v

/-- `AVL::get_rightmost` -/
def get_rightmost : AVL α → Option α
  | .Leaf => none
  | .Node _ v r _ =>
    match get_rightmost r with
    | some m => some m
    | none => some v

/-- The in-order visit sequence of `AVL::for_each` (left subtree, node value,
right subtree); this is the `in_order` traversal of the spec. -/
def inorder : AVL α → List α
  | .Leaf => []
  | .Node l v r _ => inorder l ++ v :: inorder r

/-- `AVL::unwrap`; `none` embeds the `panic!("Unexpected leaf")` branch. -/
def unwrap : AVL α → Option (AVL α × α × AVL α × Int)
  | .Leaf => none
  | .Node l v r h => some (l, v, r, h)

/-- `AVL::is_avl`: the shallow (non-recursive) AVL check on cached heights. -/
def is_avl : AVL α → Bool
  | .Leaf => true
  | .Node l _ r h =>
    (max (height l) (height r) + 1 == h) &&
    decide ((height l - height r).natAbs ≤ 1)

/-- `AVL::is_avl_full`: the recursive AVL check (cached-height correctness,
balance, and search-tree order via `get_rightmost`/`get_leftmost`). -/
def is_avl_full : AVL α → Bool
  | .Leaf => true
  | .Node l v r h =>
    ((max (height l) (height r) + 1 == h) &&
      decide ((height l - height r).natAbs ≤ 1) &&
      (match get_rightmost l with
       | none => true
       | some m => decide (m < v)) &&
      (match get_leftmost r with
       | none => true
       | some m => decide (v < m))) &&
    (is_avl_full l && is_avl_full r)

/-- `AVL::get_balance`: recompute this node's cached height and return the
balance factor `height(right) - height(left)` together with the updated
node. -/
def get_balance : AVL α → AVL α × Int
  | .Leaf => (.Leaf, 0)
  | .Node l v r _ =>
    (.Node l v r (max (height l) (height r) + 1), height r - height l)

/-- `AVL::rotate_left`; `none` embeds the `unwrap` panics and the
`assert!(..is_avl())` failures. -/
def rotate_left (t : AVL α) : Option (AVL α) := do
  let (l, lv, c, _) ← unwrap t
  let (m, rv, r, _) ← unwrap c
  let child := node l lv m
  if is_avl child then
    let s := node child rv r
    if is_avl s then some s else none
  else none

/-- `AVL::rotate_right`; `none` embeds the `unwrap` panics and the
`assert!(..is_avl())` failures. -/
def rotate_right (t : AVL α) : Option (AVL α) := do
  let (c, rv, r, _) ← unwrap t
  let (l, lv, m, _) ← unwrap c
  let child := node m rv r
  if is_avl child then
    let s := node l lv child
    if is_avl s then some s else none
  else none

/-- `AVL::balance`; `none` embeds the `panic!` branches, the asserts of the
rotations it performs, and its own `assert!(self.is_avl())` checks. -/
def balance (t : AVL α) : Option (AVL α) :=
  let (t1, b) := get_balance t
  if b.natAbs ≤ 1 then some t1
  else if 1 < b then
    match t1 with
    | .Leaf => none
    | .Node l v r h =>
      let (r1, rb) := get_balance r
      let step : Option (AVL α) :=
        if rb < 0 then do
          let r2 ← rotate_right r1
          if is_avl r2 then some r2 else none
        else some r1
      do
        let r2 ← step
        let t3 ← rotate_left (.Node l v r2 h)
        if is_avl t3 then some t3 else none
  else if b < 1 then
    match t1 with
    | .Leaf => none
    | .Node l v r h =>
      let (l1, lb) := get_balance l
      let step : Option (AVL α) :=
        if 0 < lb then do
          let l2 ← rotate_left l1
          if is_avl l2 then some l2 else none
        else some l1
      do
        let l2 ← step
        let t3 ← rotate_right (.Node l2 v r h)
        if is_avl t3 then some t3 else none
  else if is_avl t1 then some t1 else none

/-- `AVL::insert`; `none` embeds the entry assert and any panic of the
rebalancing. -/
def insert (t : AVL α) (v : α) : Option (AVL α) :=
  if is_avl t then
    match t with
    | .Leaf => balance (singleton v)
    | .Node l x r h =>
      if v < x then do
        let l2 ← insert l v
        balance (.Node l2 x r h)
      else if x < v then do
        let r2 ← insert r v
        balance (.Node l x r2 h)
      else balance (.Node l x r h)
  else none

/-- `AVL::remove_leftmost`; the returned pair is (removed value, new tree). -/
def remove_leftmost (t : AVL α) : Option (Option α × AVL α) :=
  if is_avl t then
    match t with
    | .Leaf => do
      let t2 ← balance .Leaf
      some (none, t2)
    | .Node l x r _ => do
      let (res, l2) ← remove_leftmost l
      match res with
      | some m => do
        let t2 ← balance (node l2 x r)
        some (some m, t2)
      | none => do
        let t2 ← balance r
        some (some x, t2)
  else none

/-- `AVL::remove_rightmost`; the returned pair is (removed value, new tree). -/
def remove_rightmost (t : AVL α) : Option (Option α × AVL α) :=
  if is_avl t then
    match t with
    | .Leaf => do
      let t2 ← balance .Leaf
      some (none, t2)
    | .Node l x r _ => do
      let (res, r2) ← remove_rightmost r
      match res with
      | some m => do
        let t2 ← balance (node l x r2)
        some (some m, t2)
      | none => do
        let t2 ← balance l
        some (some x, t2)
  else none

/-- `AVL::delete`; `none` embeds the entry assert and any panic of the
rebalancing. -/
def delete (t : AVL α) (v : α) : Option (AVL α) :=
  if is_avl t then
    match t with
    | .Leaf => balance .Leaf
    | .Node l x r _ =>
      if v < x then do
        let l2 ← delete l v
        balance (node l2 x r)
      else if x < v then do
        let r2 ← delete r v
        balance (node l x r2)
      else do
        let (res, r2) ← remove_leftmost r
        match res with
        | some m => balance (node l m r2)
        | none => do
          let (res2, l2) ← remove_rightmost l
          match res2 with
          | some m => balance (node l2 m r2)
          | none => balance .Leaf
  else none

/-- Modelled from the spec: `contains(tree, value) -> bool` is listed in the
spec's external interface but has no implementation in the repository;
binary-search membership over the ordered tree. -/
def contains (t : AVL α) (v : α) : Bool :=
  match t with
  | .Leaf => false
  | .Node l x r _ =>
    if v < x then contains l v
    else if x < v then contains r v
    else true

/-- The true height of a tree (not the cached one). -/
def realHeight : AVL α → Nat
  | .Leaf => 0
  | .Node l _ r _ => max (realHeight l) (realHeight r) + 1

/-- Number of nodes. -/
def size : AVL α → Nat
  | .Leaf => 0
  | .Node l _ r _ => size l + size r + 1

/-- The three data-model invariants of the spec, as one recursive predicate:
cached-height correctness, balance at every node, and search-tree order. -/
def AvlInv : AVL α → Prop
  | .Leaf => True
  | .Node l v r h =>
    AvlInv l ∧ AvlInv r ∧
    h = max (height l) (height r) + 1 ∧
    realHeight l ≤ realHeight r + 1 ∧ realHeight r ≤ realHeight l + 1 ∧
    (∀ x ∈ inorder l, x < v) ∧ (∀ x ∈ inorder r, v < x)

/-- The balance invariant alone (no height caches, no order). -/
def Balanced : AVL α → Prop
  | .Leaf => True
  | .Node l _ r _ =>
    Balanced l ∧ Balanced r ∧
    realHeight l ≤ realHeight r + 1 ∧ realHeight r ≤ realHeight l + 1

end AVL

/-- `struct AVLView<'a, A> { stack: Vec<&'a AVL<A>>, tree: &'a AVL<A> }`.
The `Vec` ancestor stack is embedded as a list whose head is the top of the
stack (the most recently pushed ancestor). -/
structure AVLView (α : Type) where
  stack : List (AVL α)
  tree : AVL α

namespace AVLView

variable {α : Type}

/-- `AVLView::new` -/
def new (t : AVL α) : AVLView α := ⟨[], t⟩

/-- `AVLView::go_left`: returns the Rust return value and the new state. -/
def go_left (c : AVLView α) : Bool × AVLView α :=
  match c.tree with
  | .Leaf => (false, c)
  | .Node l _ _ _ => (true, ⟨c.tree :: c.stack, l⟩)

/-- `AVLView::go_right` -/
def go_right (c : AVLView α) : Bool × AVLView α :=
  match c.tree with
  | .Leaf => (false, c)
  | .Node _ _ r _ => (true, ⟨c.tree :: c.stack, r⟩)

/-- `AVLView::go_up` -/
def go_up (c : AVLView α) : Bool × AVLView α :=
  match c.stack with
  | [] => (false, c)
  | t :: rest => (true, ⟨rest, t⟩)

/-- `AVLView::value` -/
def value (c : AVLView α) : Option α :=
  match c.tree with
  | .Leaf => none
  | .Node _ v _ _ => some v

end AVLView

/-- `enum AVLListView<'a, A> { Cons(&'a AVL<A>, Box<AVLListView<'a, A>>),
Single(&'a AVL<A>) }` -/
inductive AVLListView (α : Type) where
  | Single : AVL α → AVLListView α
  | Cons : AVL α → AVLListView α → AVLListView α

namespace AVLListView

variable {α : Type}

/-- `AVLListView::new` -/
def new (t : AVL α) : AVLListView α := .Single t

/-- `AVLListView::head` -/
def head : AVLListView α → AVL α
  | .Single t => t
  | .Cons t _ => t

/-- `AVLListView::uncons` -/
def uncons : AVLListView α → Option (AVL α × AVLListView α)
  | .Single _ => none
  | .Cons t rest => some (t, rest)

/-- `AVLListView::push`: the old list becomes the tail under the new head. -/
def push (s : AVLListView α) (t : AVL α) : AVLListView α := .Cons t s

/-- `AVLListView::pop`: returns the Rust return value and the new state
(a `Single` keeps its head, per the placeholder left by `mem::replace`). -/
def pop (s : AVLListView α) : Option (AVL α) × AVLListView α :=
  match uncons s with
  | none => (none, .Single (head s))
  | some (t, rest) => (some t, rest)

/-- `AVLListView::go_left` -/
def go_left (s : AVLListView α) : Bool × AVLListView α :=
  match head s with
  | .Leaf => (false, s)
  | .Node l _ _ _ => (true, push s l)

/-- `AVLListView::go_right` -/
def go_right (s : AVLListView α) : Bool × AVLListView α :=
  match head s with
  | .Leaf => (false, s)
  | .Node _ _ r _ => (true, push s r)

/-- `AVLListView::go_up` -/
def go_up (s : AVLListView α) : Bool × AVLListView α :=
  ((pop s).1.isSome, (pop s).2)

/-- `AVLListView::value` -/
def value (s : AVLListView α) : Option α :=
  match head s with
  | .Leaf => none
  | .Node _ v _ _ => some v

end AVLListView

/-- One cursor navigation command. -/
inductive Move where
  | left : Move
  | right : Move
  | up : Move

/-- Run one command on an `AVLView` cursor. -/
def stepV {α : Type} : Move → AVLView α → Bool × AVLView α
  | .left, c => AVLView.go_left c
  | .right, c => AVLView.go_right c
  | .up, c => AVLView.go_up c

/-- Run one command on an `AVLListView` cursor. -/
def stepL {α : Type} : Move → AVLListView α → Bool × AVLListView α
  | .left, s => AVLListView.go_left s
  | .right, s => AVLListView.go_right s
  | .up, s => AVLListView.go_up s

/-- Run a command sequence on an `AVLView`, recording each returned boolean
together with `value()` observed right after the call. -/
def runV {α : Type} : List Move → AVLView α → List (Bool × Option α) × AVLView α
  | [], c => ([], c)
  | m :: ms, c =>
    let p := stepV m c
    let q := runV ms p.2
    ((p.1, AVLView.value p.2) :: q.1, q.2)

/-- Run a command sequence on an `AVLListView`, recording each returned
boolean together with `value()` observed right after the call. -/
def runL {α : Type} : List Move → AVLListView α → List (Bool × Option α) × AVLListView α
  | [], s => ([], s)
  | m :: ms, s =>
    let p := stepL m s
    let q := runL ms p.2
    ((p.1, AVLListView.value p.2) :: q.1, q.2)

/-- The linked spine holding `t` above the ancestors `ss` (top ancestor
first); realizes an `AVLView` state as an `AVLListView`. -/
def spine {α : Type} : AVL α → List (AVL α) → AVLListView α
  | t, [] => .Single t
  | t, s :: ss => .Cons t (spine s ss)

/-- Abstraction map between the two cursor representations. -/
def toLV {α : Type} (c : AVLView α) : AVLListView α := spine c.tree c.stack

namespace RC

/-- `enum Tree<A> { Leaf, Node(Box<Tree<A>>, A, Box<Tree<A>>) }` from
`AVL_rc.rs` (the plain, non-height-tracking BST whose `delete` returns a
boolean). -/
inductive Tree (α : Type) where
  | Leaf : Tree α
  | Node : Tree α → α → Tree α → Tree α
deriving DecidableEq

variable {α : Type} [LinearOrder α]

/-- `Tree::singleton` -/
def singleton (v : α) : Tree α := .Node .Leaf v .Leaf

/-- In-order visit sequence of `Tree::for_each`. -/
def inorder : Tree α → List α
  | .Leaf => []
  | .Node l v r => inorder l ++ v :: inorder r

/-- `Tree::get_leftmost` -/
def get_leftmost : Tree α → Option α
  | .Leaf => none
  | .Node l v _ =>
    match get_leftmost l with
    | some m => some m
    | none => some v

/-- `Tree::get_rightmost` -/
def get_rightmost : Tree α → Option α
  | .Leaf => none
  | .Node _ v r =>
    match get_rightmost r with
    | some m => some m
    | none => some v

/-- `Tree::is_tree`: the shallow order check asserted on entry to the
mutating methods. -/
def is_tree : Tree α → Bool
  | .Leaf => true
  | .Node l v r =>
    (match get_rightmost l with
     | none => true
     | some m => decide (m < v)) &&
    (match get_leftmost r with
     | none => true
     | some m => decide (v < m))

/-- `Tree::is_tree_full`: the recursive order check. -/
def is_tree_full : Tree α → Bool
  | .Leaf => true
  | .Node l v r =>
    (match get_rightmost l with
     | none => true
     | some m => decide (m < v)) &&
    (match get_leftmost r with
     | none => true
     | some m => decide (v < m)) &&
    (is_tree_full l && is_tree_full r)

/-- `Tree::insert` (total: no assert). -/
def insert (t : Tree α) (v : α) : Tree α :=
  match t with
  | .Leaf => singleton v
  | .Node l x r =>
    if v < x then .Node (insert l v) x r
    else if x < v then .Node l x (insert r v)
    else .Node l x r

/-- `Tree::remove_leftmost`; `none` embeds the entry assert. -/
def remove_leftmost (t : Tree α) : Option (Option α × Tree α) :=
  if is_tree t then
    match t with
    | .Leaf => some (none, .Leaf)
    | .Node l x r => do
      let (res, l2) ← remove_leftmost l
      match res with
      | some m => some (some m, .Node l2 x r)
      | none => some (some x, r)
  else none

/-- `Tree::remove_rightmost`; `none` embeds the entry assert. -/
def remove_rightmost (t : Tree α) : Option (Option α × Tree α) :=
  if is_tree t then
    match t with
    | .Leaf => some (none, .Leaf)
    | .Node l x r => do
      let (res, r2) ← remove_rightmost r
      match res with
      | some m => some (some m, .Node l x r2)
      | none => some (some x, l)
  else none

/-- `Tree::delete`: returns the Rust boolean return value together with the
new tree; `none` embeds the entry assert. -/
def delete (t : Tree α) (v : α) : Option (Bool × Tree α) :=
  if is_tree t then
    match t with
    | .Leaf => some (false, .Leaf)
    | .Node l x r =>
      if v < x then do
        let (res, l2) ← delete l v
        some (res, .Node l2 x r)
      else if x < v then do
        let (res, r2) ← delete r v
        some (res, .Node l x r2)
      else do
        let (res, r2) ← remove_leftmost r
        match res with
        | some m => some (true, .Node l m r2)
        | none => do
          let (res2, l2) ← remove_rightmost l
          match res2 with
          | some m => some (true, .Node l2 m r2)
          | none => some (false, .Leaf)
  else none

end RC

theorem AVLListView.head_spine {α : Type} (t : AVL α) (ss : List (AVL α)) :
    (spine t ss).head = t := by
  cases ss <;> rfl

theorem stepL_toLV {α : Type} (m : Move) (c : AVLView α) :
    stepL m (toLV c) = ((stepV m c).1, toLV (stepV m c).2) := by
  obtain ⟨ss, t⟩ := c
  cases m with
  | left =>
    cases t <;>
      simp [stepL, stepV, toLV, AVLView.go_left, AVLListView.go_left,
        AVLListView.head_spine, AVLListView.push, spine]
  | right =>
    cases t <;>
      simp [stepL, stepV, toLV, AVLView.go_right, AVLListView.go_right,
        AVLListView.head_spine, AVLListView.push, spine]
  | up =>
    cases ss <;>
      simp [stepL, stepV, toLV, AVLView.go_up, AVLListView.go_up,
        AVLListView.pop, AVLListView.uncons, AVLListView.head, spine]

theorem value_toLV {α : Type} (c : AVLView α) :
    (toLV c).value = c.value := by
  obtain ⟨ss, t⟩ := c
  cases t <;> simp [toLV, AVLListView.value, AVLView.value, AVLListView.head_spine]

theorem runL_toLV {α : Type} (ms : List Move) (c : AVLView α) :
    runL ms (toLV c) = ((runV ms c).1, toLV (runV ms c).2) := by
  induction ms generalizing c with
  | nil => simp [runL, runV]
  | cons m ms ih =>
    simp only [runL, runV, stepL_toLV, ih, value_toLV]

/-- Claim C9: the two cursor implementations are behaviorally equivalent —
for every tree and every finite sequence of `go_left`/`go_right`/`go_up`
calls, `AVLView` and `AVLListView` return the same sequence of booleans, and
`value()` agrees after every step. -/
theorem cursor_views_equivalent {α : Type} (ms : List Move) (t : AVL α) :
    (runL ms (AVLListView.new t)).1 = (runV ms (AVLView.new t)).1 := by
  have h : AVLListView.new t = toLV (AVLView.new t) := rfl
  rw [h, runL_toLV]

/-- Claim C8: `go_left`/`go_right` fail (return `false`, cursor unmoved)
exactly when the current node is empty, `go_up` exactly when the ancestor
stack is empty (i.e. at the root); otherwise each call moves the cursor and
returns `true`. -/
theorem cursor_moves_characterized {α : Type} (c : AVLView α) :
    ((AVLView.go_left c).1 = false ↔ c.tree = .Leaf) ∧
    ((AVLView.go_right c).1 = false ↔ c.tree = .Leaf) ∧
    ((AVLView.go_up c).1 = false ↔ c.stack = []) ∧
    (c.tree = .Leaf → AVLView.go_left c = (false, c)) ∧
    (c.tree = .Leaf → AVLView.go_right c = (false, c)) ∧
    (c.stack = [] → AVLView.go_up c = (false, c)) ∧
    (∀ l v r h, c.tree = .Node l v r h →
      AVLView.go_left c = (true, ⟨c.tree :: c.stack, l⟩) ∧
      AVLView.go_right c = (true, ⟨c.tree :: c.stack, r⟩)) ∧
    (∀ s ss, c.stack = s :: ss → AVLView.go_up c = (true, ⟨ss, s⟩)) := by
  obtain ⟨ss, t⟩ := c
  cases t <;> cases ss <;>
    simp [AVLView.go_left, AVLView.go_right, AVLView.go_up] <;>
    exact fun l v r h h1 h2 h3 h4 => ⟨h1, h3⟩

theorem cursor_moves_characterized_witness :
    AVLView.go_up (AVLView.new (AVL.Leaf : AVL ℕ)) = (false, AVLView.new .Leaf) :=
  (cursor_moves_characterized (AVLView.new .Leaf)).2.2.2.2.2.1 rfl

/-- Claim C10: from a `Node`, `go_left`/`go_right` succeed and descend even
into an empty child, where `value()` then returns `none`; the failing case
is exactly an empty current node. -/
theorem cursor_descends_into_empty_child {α : Type} (c : AVLView α) :
    ((AVLView.go_left c).1 = false ↔ c.tree = .Leaf) ∧
    ((AVLView.go_right c).1 = false ↔ c.tree = .Leaf) ∧
    (∀ l v r h, c.tree = .Node l v r h →
      (AVLView.go_left c).1 = true ∧ (AVLView.go_left c).2.tree = l ∧
      (AVLView.go_right c).1 = true ∧ (AVLView.go_right c).2.tree = r ∧
      (l = .Leaf → AVLView.value (AVLView.go_left c).2 = none) ∧
      (r = .Leaf → AVLView.value (AVLView.go_right c).2 = none)) := by
  obtain ⟨ss, t⟩ := c
  cases t with
  | Leaf => simp [AVLView.go_left, AVLView.go_right]
  | Node l v r h =>
    refine ⟨by simp [AVLView.go_left], by simp [AVLView.go_right], ?_⟩
    rintro l1 v1 r1 h1 heq
    cases heq
    refine ⟨rfl, rfl, rfl, rfl, ?_, ?_⟩ <;> rintro rfl <;> rfl

theorem cursor_descends_into_empty_child_witness :
    (AVLView.go_left (AVLView.new (AVL.Node .Leaf (0 : ℕ) .Leaf 1))).1 = true ∧
    AVLView.value (AVLView.go_left (AVLView.new (AVL.Node .Leaf (0 : ℕ) .Leaf 1))).2 = none := by
  obtain ⟨h1, -, -, -, h5, -⟩ :=
    (cursor_descends_into_empty_child
      (AVLView.new (AVL.Node .Leaf (0 : ℕ) .Leaf 1))).2.2 .Leaf 0 .Leaf 1 rfl
  exact ⟨h1, h5 rfl⟩

/-- Claim C3 (code bug): `Tree::delete` in `AVL_rc.rs` removes a present
value that sits in a node with two empty children but returns `false` for
it: deleting `5` from the singleton tree `{5}` yields the empty tree and the
return value `false`, although `5` was present before the call. -/
theorem rc_delete_returns_false_on_present_leaf_value :
    RC.delete (RC.singleton (5 : ℕ)) 5 = some (false, RC.Tree.Leaf) ∧
    (5 : ℕ) ∈ RC.inorder (RC.singleton 5) := by
  decide


namespace AVL

section OrderFree

variable {α : Type}

@[simp] theorem height_Leaf : height (.Leaf : AVL α) = 0 := rfl

@[simp] theorem height_Node (l : AVL α) (v : α) (r : AVL α) (h : Int) :
    height (.Node l v r h) = h := rfl

@[simp] theorem inorder_Leaf : inorder (.Leaf : AVL α) = [] := rfl

@[simp] theorem inorder_Node (l : AVL α) (v : α) (r : AVL α) (h : Int) :
    inorder (.Node l v r h) = inorder l ++ v :: inorder r := rfl

@[simp] theorem realHeight_Leaf : realHeight (.Leaf : AVL α) = 0 := rfl

@[simp] theorem realHeight_Node (l : AVL α) (v : α) (r : AVL α) (h : Int) :
    realHeight (.Node l v r h) = max (realHeight l) (realHeight r) + 1 := rfl

theorem node_def (l : AVL α) (v : α) (r : AVL α) :
    node l v r = .Node l v r (max (height l) (height r) + 1) := rfl

@[simp] theorem inorder_node (l : AVL α) (v : α) (r : AVL α) :
    inorder (node l v r) = inorder l ++ v :: inorder r := rfl

@[simp] theorem realHeight_node (l : AVL α) (v : α) (r : AVL α) :
    realHeight (node l v r) = max (realHeight l) (realHeight r) + 1 := rfl

@[simp] theorem size_Leaf : size (.Leaf : AVL α) = 0 := rfl

@[simp] theorem size_Node (l : AVL α) (v : α) (r : AVL α) (h : Int) :
    size (.Node l v r h) = size l + size r + 1 := rfl

theorem get_rightmost_eq_none {t : AVL α} :
    get_rightmost t = none ↔ t = .Leaf := by
  cases t with
  | Leaf => simp [get_rightmost]
  | Node l v r h =>
    simp only [get_rightmost]
    cases get_rightmost r <;> simp

theorem get_leftmost_eq_none {t : AVL α} :
    get_leftmost t = none ↔ t = .Leaf := by
  cases t with
  | Leaf => simp [get_leftmost]
  | Node l v r h =>
    simp only [get_leftmost]
    cases get_leftmost l <;> simp

theorem get_rightmost_mem {t : AVL α} {m : α} (h : get_rightmost t = some m) :
    m ∈ inorder t := by
  induction t with
  | Leaf => simp [get_rightmost] at h
  | Node l v r hh ihl ihr =>
    simp only [get_rightmost] at h
    rcases hr : get_rightmost r with - | m2 <;> rw [hr] at h
    · obtain rfl : v = m := by simpa using h
      simp
    · obtain rfl : m2 = m := by simpa using h
      simp [ihr hr]

theorem get_leftmost_mem {t : AVL α} {m : α} (h : get_leftmost t = some m) :
    m ∈ inorder t := by
  induction t with
  | Leaf => simp [get_leftmost] at h
  | Node l v r hh ihl ihr =>
    simp only [get_leftmost] at h
    rcases hl : get_leftmost l with - | m2 <;> rw [hl] at h
    · obtain rfl : v = m := by simpa using h
      simp
    · obtain rfl : m2 = m := by simpa using h
      simp [ihl hl]


theorem unwrap_Node (l : AVL α) (v : α) (r : AVL α) (h : Int) :
    unwrap (.Node l v r h) = some (l, v, r, h) := rfl

theorem unwrap_node (l : AVL α) (v : α) (r : AVL α) :
    unwrap (node l v r) = some (l, v, r, max (height l) (height r) + 1) := rfl

end OrderFree

variable {α : Type} [LinearOrder α]

@[simp] theorem avlInv_Leaf : AvlInv (.Leaf : AVL α) := trivial

theorem avlInv_Node {l : AVL α} {v : α} {r : AVL α} {h : Int} :
    AvlInv (.Node l v r h) ↔
      AvlInv l ∧ AvlInv r ∧
      h = max (height l) (height r) + 1 ∧
      realHeight l ≤ realHeight r + 1 ∧ realHeight r ≤ realHeight l + 1 ∧
      (∀ x ∈ inorder l, x < v) ∧ (∀ x ∈ inorder r, v < x) := by
  simp [AvlInv]

theorem height_eq_real {t : AVL α} (H : AvlInv t) :
    height t = (realHeight t : Int) := by
  induction t with
  | Leaf => rfl
  | Node l v r h ihl ihr =>
    rw [avlInv_Node] at H
    obtain ⟨Hl, Hr, hh, -⟩ := H
    rw [height_Node, realHeight_Node, hh, ihl Hl, ihr Hr]
    push_cast
    omega

theorem is_avl_of_inv {t : AVL α} (H : AvlInv t) : is_avl t = true := by
  cases t with
  | Leaf => rfl
  | Node l v r h =>
    rw [avlInv_Node] at H
    obtain ⟨Hl, Hr, hh, d1, d2, -⟩ := H
    have el := height_eq_real Hl
    have er := height_eq_real Hr
    simp only [is_avl, Bool.and_eq_true, beq_iff_eq, decide_eq_true_eq]
    rw [el, er] at hh ⊢
    constructor
    · omega
    · omega

theorem le_get_rightmost {t : AVL α} (H : AvlInv t) {m : α}
    (h : get_rightmost t = some m) : ∀ y ∈ inorder t, y ≤ m := by
  induction t with
  | Leaf => simp
  | Node l v r hh ihl ihr =>
    rw [avlInv_Node] at H
    obtain ⟨Hl, Hr, -, -, -, bl, br⟩ := H
    simp only [get_rightmost] at h
    intro y hy
    simp only [inorder_Node, List.mem_append, List.mem_cons] at hy
    rcases hr : get_rightmost r with - | m2 <;> rw [hr] at h
    · obtain rfl : v = m := by simpa using h
      obtain rfl : r = .Leaf := get_rightmost_eq_none.mp hr
      rcases hy with hy | rfl | hy
      · exact le_of_lt (bl y hy)
      · exact le_refl y
      · simp at hy
    · obtain rfl : m2 = m := by simpa using h
      have hvm : v < m2 := br m2 (get_rightmost_mem hr)
      rcases hy with hy | rfl | hy
      · exact le_of_lt (lt_trans (bl y hy) hvm)
      · exact le_of_lt hvm
      · exact ihr Hr hr y hy

theorem get_leftmost_le {t : AVL α} (H : AvlInv t) {m : α}
    (h : get_leftmost t = some m) : ∀ y ∈ inorder t, m ≤ y := by
  induction t with
  | Leaf => simp
  | Node l v r hh ihl ihr =>
    rw [avlInv_Node] at H
    obtain ⟨Hl, Hr, -, -, -, bl, br⟩ := H
    simp only [get_leftmost] at h
    intro y hy
    simp only [inorder_Node, List.mem_append, List.mem_cons] at hy
    rcases hl : get_leftmost l with - | m2 <;> rw [hl] at h
    · obtain rfl : v = m := by simpa using h
      obtain rfl : l = .Leaf := get_leftmost_eq_none.mp hl
      rcases hy with hy | rfl | hy
      · simp at hy
      · exact le_refl y
      · exact le_of_lt (br y hy)
    · obtain rfl : m2 = m := by simpa using h
      have hvm : m2 < v := bl m2 (get_leftmost_mem hl)
      rcases hy with hy | rfl | hy
      · exact ihl Hl hl y hy
      · exact le_of_lt hvm
      · exact le_of_lt (lt_trans hvm (br y hy))

/-- The code's recursive checker `is_avl_full` decides exactly the three
data-model invariants. -/
theorem is_avl_full_iff_inv {t : AVL α} : is_avl_full t = true ↔ AvlInv t := by
  induction t with
  | Leaf => simp [is_avl_full]
  | Node l v r h ihl ihr =>
    rw [avlInv_Node]
    simp only [is_avl_full, Bool.and_eq_true, beq_iff_eq, decide_eq_true_eq, ihl, ihr,
      and_assoc]
    constructor
    · rintro ⟨hh, hbal, hsl, hsr, Hl, Hr⟩
      have el := height_eq_real Hl
      have er := height_eq_real Hr
      rw [el, er] at hh hbal
      refine ⟨Hl, Hr, by rw [el, er]; omega, by omega, by omega, ?_, ?_⟩
      · rcases hgr : get_rightmost l with - | m
        · obtain rfl : l = .Leaf := get_rightmost_eq_none.mp hgr
          intro x hx
          simp at hx
        · rw [hgr] at hsl
          simp only [decide_eq_true_eq] at hsl
          intro x hx
          exact lt_of_le_of_lt (le_get_rightmost Hl hgr x hx) hsl
      · rcases hgl : get_leftmost r with - | m
        · obtain rfl : r = .Leaf := get_leftmost_eq_none.mp hgl
          intro x hx
          simp at hx
        · rw [hgl] at hsr
          simp only [decide_eq_true_eq] at hsr
          intro x hx
          exact lt_of_lt_of_le hsr (get_leftmost_le Hr hgl x hx)
    · rintro ⟨Hl, Hr, hh, d1, d2, bl, br⟩
      have el := height_eq_real Hl
      have er := height_eq_real Hr
      rw [el, er] at hh
      refine ⟨by rw [el, er]; omega, by rw [el, er]; omega, ?_, ?_, Hl, Hr⟩
      · rcases hgr : get_rightmost l with - | m
        · rfl
        · simp only [decide_eq_true_eq]
          exact bl m (get_rightmost_mem hgr)
      · rcases hgl : get_leftmost r with - | m
        · rfl
        · simp only [decide_eq_true_eq]
          exact br m (get_leftmost_mem hgl)

theorem sorted_inorder {t : AVL α} (H : AvlInv t) :
    List.Sorted (· < ·) (inorder t) := by
  induction t with
  | Leaf => simp
  | Node l v r h ihl ihr =>
    rw [avlInv_Node] at H
    obtain ⟨Hl, Hr, -, -, -, bl, br⟩ := H
    rw [inorder_Node]
    refine List.pairwise_append.mpr ⟨ihl Hl, List.pairwise_cons.mpr ⟨br, ihr Hr⟩, ?_⟩
    intro x hx y hy
    rcases List.mem_cons.mp hy with rfl | hy
    · exact bl x hx
    · exact lt_trans (bl x hx) (br y hy)

end AVL

namespace AVL

variable {α : Type} [LinearOrder α]

theorem avlInv_mk_node {l r : AVL α} {v : α} (Hl : AvlInv l) (Hr : AvlInv r)
    (d1 : realHeight l ≤ realHeight r + 1) (d2 : realHeight r ≤ realHeight l + 1)
    (bl : ∀ x ∈ inorder l, x < v) (br : ∀ x ∈ inorder r, v < x) :
    AvlInv (node l v r) := by
  rw [node_def, avlInv_Node]
  exact ⟨Hl, Hr, rfl, d1, d2, bl, br⟩

theorem balance_easy (l : AVL α) (v : α) (r : AVL α) (h0 : Int)
    (Hl : AvlInv l) (Hr : AvlInv r)
    (d1 : realHeight l ≤ realHeight r + 1) (d2 : realHeight r ≤ realHeight l + 1) :
    balance (.Node l v r h0) = some (node l v r) := by
  have el := height_eq_real Hl
  have er := height_eq_real Hr
  simp only [balance, get_balance, node_def]
  rw [if_pos]
  rw [el, er]
  omega

theorem is_avl_of_mk_node {l r : AVL α} {v : α} (Hl : AvlInv l) (Hr : AvlInv r)
    (d1 : realHeight l ≤ realHeight r + 1) (d2 : realHeight r ≤ realHeight l + 1)
    (bl : ∀ x ∈ inorder l, x < v) (br : ∀ x ∈ inorder r, v < x) :
    is_avl (node l v r) = true :=
  is_avl_of_inv (avlInv_mk_node Hl Hr d1 d2 bl br)

theorem balance_right_single (l : AVL α) (v : α) (rl : AVL α) (rv : α)
    (rr : AVL α) (rc h0 : Int)
    (Hl : AvlInv l) (Hr : AvlInv (.Node rl rv rr rc))
    (Bl : ∀ x ∈ inorder l, x < v) (Br : ∀ x ∈ inorder (.Node rl rv rr rc), v < x)
    (hgap : realHeight rl ⊔ realHeight rr + 1 = realHeight l + 2)
    (hle : realHeight rl ≤ realHeight rr) :
    balance (.Node l v (.Node rl rv rr rc) h0) = some (node (node l v rl) rv rr) ∧
      AvlInv (node (node l v rl) rv rr) := by
  have el := height_eq_real Hl
  have er := height_eq_real Hr
  rw [avlInv_Node] at Hr
  obtain ⟨Hrl, Hrr, hrc, drl, drr, brl, brr⟩ := Hr
  have erl := height_eq_real Hrl
  have err := height_eq_real Hrr
  -- component order facts
  have Brl : ∀ x ∈ inorder rl, v < x := fun x hx => Br x (by simp [hx])
  have Brv : v < rv := Br rv (by simp)
  have Brr : ∀ x ∈ inorder rr, v < x := fun x hx => Br x (by simp [hx])
  -- height bookkeeping
  have hrr1 : realHeight rr = realHeight l + 1 := by omega
  have hrl1 : realHeight l ≤ realHeight rl := by omega
  have Hchild : AvlInv (node l v rl) :=
    avlInv_mk_node Hl Hrl (by omega) (by omega) Bl Brl
  have echild := height_eq_real Hchild
  have hchildreal : realHeight (node l v rl) = realHeight rl + 1 := by
    rw [realHeight_node]
    omega
  have erc : rc = ((realHeight rl ⊔ realHeight rr + 1 : Nat) : Int) := by simpa using er
  rw [hgap] at erc
  have Hs : AvlInv (node (node l v rl) rv rr) := by
    refine avlInv_mk_node Hchild Hrr ?_ ?_ ?_ brr
    · rw [hchildreal]; omega
    · rw [hchildreal]; omega
    · intro x hx
      simp only [inorder_node, List.mem_append, List.mem_cons] at hx
      rcases hx with hx | rfl | hx
      · exact lt_trans (Bl x hx) Brv
      · exact Brv
      · exact brl x hx
  refine ⟨?_, Hs⟩
  simp only [balance, get_balance, height_Node]
  rw [if_neg (by rw [el, erc]; omega)]
  rw [if_pos (by rw [el, erc]; omega)]
  rw [if_neg (show ¬(height rr - height rl < 0) by rw [erl, err]; omega)]
  simp only [Option.bind_eq_bind', Option.some_bind']
  simp only [rotate_left, unwrap, Option.bind_eq_bind', Option.some_bind']
  rw [if_pos (is_avl_of_inv Hchild)]
  rw [if_pos (is_avl_of_inv Hs)]
  simp only [Option.bind_eq_bind', Option.some_bind']
  rw [if_pos (is_avl_of_inv Hs)]

end AVL

namespace AVL

variable {α : Type} [LinearOrder α]

theorem balance_right_double (l : AVL α) (v : α) (a : AVL α) (av : α) (b : AVL α)
    (ac : Int) (rv : α) (rr : AVL α) (rc h0 : Int)
    (Hl : AvlInv l) (Hr : AvlInv (.Node (.Node a av b ac) rv rr rc))
    (Bl : ∀ x ∈ inorder l, x < v)
    (Br : ∀ x ∈ inorder (.Node (.Node a av b ac) rv rr rc), v < x)
    (hgap : (realHeight a ⊔ realHeight b + 1) ⊔ realHeight rr + 1 = realHeight l + 2)
    (hgt : realHeight rr < realHeight a ⊔ realHeight b + 1)
    (hsucc : realHeight l ≤ realHeight a) :
    balance (.Node l v (.Node (.Node a av b ac) rv rr rc) h0) =
      some (node (node l v a) av (node b rv rr)) ∧
    AvlInv (node (node l v a) av (node b rv rr)) := by
  have el := height_eq_real Hl
  have er := height_eq_real Hr
  have erc : rc = (((realHeight a ⊔ realHeight b + 1) ⊔ realHeight rr + 1 : Nat) : Int) := by
    simpa using er
  rw [avlInv_Node] at Hr
  obtain ⟨Hrl, Hrr, hrc, drl, drr, brl, brr⟩ := Hr
  have erl := height_eq_real Hrl
  have eac : ac = ((realHeight a ⊔ realHeight b + 1 : Nat) : Int) := by simpa using erl
  have err := height_eq_real Hrr
  rw [avlInv_Node] at Hrl
  obtain ⟨Ha, Hb, hac, da1, da2, baa, bab⟩ := Hrl
  have ea := height_eq_real Ha
  have eb := height_eq_real Hb
  -- arithmetic facts
  have hrr0 : realHeight rr = realHeight l := by
    simp only [realHeight_Node] at drr
    omega
  have hha : realHeight a = realHeight l := by omega
  have hhb : realHeight b + 1 ≥ realHeight l := by omega
  have hhb2 : realHeight b ≤ realHeight l := by omega
  -- order facts
  have Bra : ∀ x ∈ inorder a, v < x := fun x hx => Br x (by simp [hx])
  have Brav : v < av := Br av (by simp)
  have Brv : v < rv := Br rv (by simp)
  have bav : av < rv := brl av (by simp)
  have bbrv : ∀ x ∈ inorder b, x < rv := fun x hx => brl x (by simp [hx])
  -- the two halves of the rotated tree
  have Hinner : AvlInv (node b rv rr) :=
    avlInv_mk_node Hb Hrr (by omega) (by omega) bbrv brr
  have hinnerreal : realHeight (node b rv rr) = realHeight l + 1 := by
    rw [realHeight_node]
    omega
  have Hmid : AvlInv (node a av (node b rv rr)) := by
    refine avlInv_mk_node Ha Hinner (by omega) (by omega) baa ?_
    intro x hx
    simp only [inorder_node, List.mem_append, List.mem_cons] at hx
    rcases hx with hx | rfl | hx
    · exact bab x hx
    · exact bav
    · exact lt_trans bav (brr x hx)
  have Hchild : AvlInv (node l v a) :=
    avlInv_mk_node Hl Ha (by omega) (by omega) Bl Bra
  have hchildreal : realHeight (node l v a) = realHeight l + 1 := by
    rw [realHeight_node]
    omega
  have HT : AvlInv (node (node l v a) av (node b rv rr)) := by
    refine avlInv_mk_node Hchild Hinner (by omega) (by omega) ?_ ?_
    · intro x hx
      simp only [inorder_node, List.mem_append, List.mem_cons] at hx
      rcases hx with hx | rfl | hx
      · exact lt_trans (Bl x hx) Brav
      · exact Brav
      · exact baa x hx
    · intro x hx
      simp only [inorder_node, List.mem_append, List.mem_cons] at hx
      rcases hx with hx | rfl | hx
      · exact bab x hx
      · exact bav
      · exact lt_trans bav (brr x hx)
  refine ⟨?_, HT⟩
  have c1 : ¬((rc - height l).natAbs ≤ 1) := by rw [el, erc]; omega
  have c2 : 1 < rc - height l := by rw [el, erc]; omega
  have c3 : height rr - ac < 0 := by rw [err, eac]; omega
  simp only [balance, get_balance, height_Node, if_neg c1, if_pos c2, if_pos c3,
    rotate_right, rotate_left, unwrap_Node, unwrap_node,
    Option.bind_eq_bind', Option.some_bind',
    if_pos (is_avl_of_inv Hinner), if_pos (is_avl_of_inv Hmid),
    if_pos (is_avl_of_inv Hchild), if_pos (is_avl_of_inv HT)]

theorem balance_right_double_fail (l : AVL α) (v : α) (a : AVL α) (av : α) (b : AVL α)
    (ac : Int) (rv : α) (rr : AVL α) (rc h0 : Int)
    (Hl : AvlInv l) (Hr : AvlInv (.Node (.Node a av b ac) rv rr rc))
    (hgap : (realHeight a ⊔ realHeight b + 1) ⊔ realHeight rr + 1 = realHeight l + 2)
    (hgt : realHeight rr < realHeight a ⊔ realHeight b + 1)
    (hfail : realHeight a < realHeight l) :
    balance (.Node l v (.Node (.Node a av b ac) rv rr rc) h0) = none := by
  have el := height_eq_real Hl
  have er := height_eq_real Hr
  have erc : rc = (((realHeight a ⊔ realHeight b + 1) ⊔ realHeight rr + 1 : Nat) : Int) := by
    simpa using er
  rw [avlInv_Node] at Hr
  obtain ⟨Hrl, Hrr, hrc, drl, drr, brl, brr⟩ := Hr
  have erl := height_eq_real Hrl
  have eac : ac = ((realHeight a ⊔ realHeight b + 1 : Nat) : Int) := by simpa using erl
  have err := height_eq_real Hrr
  rw [avlInv_Node] at Hrl
  obtain ⟨Ha, Hb, hac, da1, da2, baa, bab⟩ := Hrl
  have ea := height_eq_real Ha
  have eb := height_eq_real Hb
  have hrr0 : realHeight rr = realHeight l := by
    simp only [realHeight_Node] at drr
    omega
  have hhb : realHeight b = realHeight l := by omega
  have bbrv : ∀ x ∈ inorder b, x < rv := fun x hx => brl x (by simp [hx])
  have Hinner : AvlInv (node b rv rr) :=
    avlInv_mk_node Hb Hrr (by omega) (by omega) bbrv brr
  have cneg : ¬(is_avl (node a av (node b rv rr)) = true) := by
    simp only [node_def, is_avl, height_Node, Bool.and_eq_true, beq_iff_eq,
      decide_eq_true_eq]
    rintro ⟨-, habs⟩
    rw [ea, eb, err] at habs
    omega
  have c1 : ¬((rc - height l).natAbs ≤ 1) := by rw [el, erc]; omega
  have c2 : 1 < rc - height l := by rw [el, erc]; omega
  have c3 : height rr - ac < 0 := by rw [err, eac]; omega
  simp only [balance, get_balance, height_Node, if_neg c1, if_pos c2, if_pos c3,
    rotate_right, unwrap_Node, unwrap_node,
    Option.bind_eq_bind', Option.some_bind', Option.none_bind',
    if_pos (is_avl_of_inv Hinner), if_neg cneg]

theorem balance_left_single (ll : AVL α) (lv : α) (lr : AVL α) (lc : Int)
    (v : α) (r : AVL α) (h0 : Int)
    (Hl : AvlInv (.Node ll lv lr lc)) (Hr : AvlInv r)
    (Bl : ∀ x ∈ inorder (.Node ll lv lr lc), x < v) (Br : ∀ x ∈ inorder r, v < x)
    (hgap : realHeight ll ⊔ realHeight lr + 1 = realHeight r + 2)
    (hge : realHeight lr ≤ realHeight ll) :
    balance (.Node (.Node ll lv lr lc) v r h0) = some (node ll lv (node lr v r)) ∧
      AvlInv (node ll lv (node lr v r)) := by
  have el := height_eq_real Hl
  have er := height_eq_real Hr
  have elc : lc = ((realHeight ll ⊔ realHeight lr + 1 : Nat) : Int) := by simpa using el
  rw [avlInv_Node] at Hl
  obtain ⟨Hll, Hlr, hlc, dll, dlr, bll, blr⟩ := Hl
  have ell := height_eq_real Hll
  have elr := height_eq_real Hlr
  have Bll : ∀ x ∈ inorder ll, x < v := fun x hx => Bl x (by simp [hx])
  have Blv : lv < v := Bl lv (by simp)
  have Blr : ∀ x ∈ inorder lr, x < v := fun x hx => Bl x (by simp [hx])
  have hll1 : realHeight ll = realHeight r + 1 := by omega
  have hlr1 : realHeight r ≤ realHeight lr := by omega
  have Hchild : AvlInv (node lr v r) :=
    avlInv_mk_node Hlr Hr (by omega) (by omega) Blr Br
  have hchildreal : realHeight (node lr v r) = realHeight lr + 1 := by
    rw [realHeight_node]
    omega
  have Hs : AvlInv (node ll lv (node lr v r)) := by
    refine avlInv_mk_node Hll Hchild ?_ ?_ bll ?_
    · rw [hchildreal]; omega
    · rw [hchildreal]; omega
    · intro x hx
      simp only [inorder_node, List.mem_append, List.mem_cons] at hx
      rcases hx with hx | rfl | hx
      · exact blr x hx
      · exact Blv
      · exact lt_trans Blv (Br x hx)
  refine ⟨?_, Hs⟩
  have c1 : ¬((height r - lc).natAbs ≤ 1) := by rw [er, elc]; omega
  have c2 : ¬(1 < height r - lc) := by rw [er, elc]; omega
  have c2b : height r - lc < 1 := by rw [er, elc]; omega
  have c3 : ¬(0 < height lr - height ll) := by rw [ell, elr]; omega
  simp only [balance, get_balance, height_Node, if_neg c1, if_neg c2, if_pos c2b,
    if_neg c3, rotate_right, unwrap_Node, unwrap_node,
    Option.bind_eq_bind', Option.some_bind',
    if_pos (is_avl_of_inv Hchild), if_pos (is_avl_of_inv Hs)]

theorem balance_left_double (ll : AVL α) (lv : α) (c : AVL α) (cv : α) (d : AVL α)
    (dc lc : Int) (v : α) (r : AVL α) (h0 : Int)
    (Hl : AvlInv (.Node ll lv (.Node c cv d dc) lc)) (Hr : AvlInv r)
    (Bl : ∀ x ∈ inorder (.Node ll lv (.Node c cv d dc) lc), x < v)
    (Br : ∀ x ∈ inorder r, v < x)
    (hgap : realHeight ll ⊔ (realHeight c ⊔ realHeight d + 1) + 1 = realHeight r + 2)
    (hgt : realHeight ll < realHeight c ⊔ realHeight d + 1)
    (hsucc : realHeight r ≤ realHeight d) :
    balance (.Node (.Node ll lv (.Node c cv d dc) lc) v r h0) =
      some (node (node ll lv c) cv (node d v r)) ∧
    AvlInv (node (node ll lv c) cv (node d v r)) := by
  have el := height_eq_real Hl
  have er := height_eq_real Hr
  have elc : lc = ((realHeight ll ⊔ (realHeight c ⊔ realHeight d + 1) + 1 : Nat) : Int) := by
    simpa using el
  rw [avlInv_Node] at Hl
  obtain ⟨Hll, Hlr, hlc, dll, dlr, bll, blr⟩ := Hl
  have ell := height_eq_real Hll
  have elr := height_eq_real Hlr
  have edc : dc = ((realHeight c ⊔ realHeight d + 1 : Nat) : Int) := by simpa using elr
  rw [avlInv_Node] at Hlr
  obtain ⟨Hc, Hd, hdc, dc1, dc2, bcc, bcd⟩ := Hlr
  have ec := height_eq_real Hc
  have ed := height_eq_real Hd
  have hll0 : realHeight ll = realHeight r := by
    simp only [realHeight_Node] at dll
    omega
  have hhd : realHeight d = realHeight r := by omega
  have hhc : realHeight c ≤ realHeight r := by omega
  have hhc2 : realHeight c + 1 ≥ realHeight r := by omega
  have Blc : ∀ x ∈ inorder c, x < v := fun x hx => Bl x (by simp [hx])
  have Bld : ∀ x ∈ inorder d, x < v := fun x hx => Bl x (by simp [hx])
  have Blcv : cv < v := Bl cv (by simp)
  have Bllv : lv < v := Bl lv (by simp)
  have blvc : lv < cv := blr cv (by simp)
  have bllc : ∀ x ∈ inorder c, lv < x := fun x hx => blr x (by simp [hx])
  have Hchild : AvlInv (node ll lv c) :=
    avlInv_mk_node Hll Hc (by omega) (by omega) bll bllc
  have hchildreal : realHeight (node ll lv c) = realHeight r + 1 := by
    rw [realHeight_node]
    omega
  have Hmid : AvlInv (node (node ll lv c) cv d) := by
    refine avlInv_mk_node Hchild Hd (by omega) (by omega) ?_ bcd
    intro x hx
    simp only [inorder_node, List.mem_append, List.mem_cons] at hx
    rcases hx with hx | rfl | hx
    · exact lt_trans (bll x hx) blvc
    · exact blvc
    · exact bcc x hx
  have Hinner : AvlInv (node d v r) :=
    avlInv_mk_node Hd Hr (by omega) (by omega) Bld Br
  have hinnerreal : realHeight (node d v r) = realHeight r + 1 := by
    rw [realHeight_node]
    omega
  have HT : AvlInv (node (node ll lv c) cv (node d v r)) := by
    refine avlInv_mk_node Hchild Hinner (by omega) (by omega) ?_ ?_
    · intro x hx
      simp only [inorder_node, List.mem_append, List.mem_cons] at hx
      rcases hx with hx | rfl | hx
      · exact lt_trans (bll x hx) blvc
      · exact blvc
      · exact bcc x hx
    · intro x hx
      simp only [inorder_node, List.mem_append, List.mem_cons] at hx
      rcases hx with hx | rfl | hx
      · exact bcd x hx
      · exact Blcv
      · exact lt_trans Blcv (Br x hx)
  refine ⟨?_, HT⟩
  have c1 : ¬((height r - lc).natAbs ≤ 1) := by rw [er, elc]; omega
  have c2 : ¬(1 < height r - lc) := by rw [er, elc]; omega
  have c2b : height r - lc < 1 := by rw [er, elc]; omega
  have c3 : 0 < dc - height ll := by rw [ell, edc]; omega
  simp only [balance, get_balance, height_Node, if_neg c1, if_neg c2, if_pos c2b,
    if_pos c3, rotate_left, rotate_right, unwrap_Node, unwrap_node,
    Option.bind_eq_bind', Option.some_bind',
    if_pos (is_avl_of_inv Hchild), if_pos (is_avl_of_inv Hmid),
    if_pos (is_avl_of_inv Hinner), if_pos (is_avl_of_inv HT)]

theorem balance_left_double_fail (ll : AVL α) (lv : α) (c : AVL α) (cv : α) (d : AVL α)
    (dc lc : Int) (v : α) (r : AVL α) (h0 : Int)
    (Hl : AvlInv (.Node ll lv (.Node c cv d dc) lc)) (Hr : AvlInv r)
    (hgap : realHeight ll ⊔ (realHeight c ⊔ realHeight d + 1) + 1 = realHeight r + 2)
    (hgt : realHeight ll < realHeight c ⊔ realHeight d + 1)
    (hfail : realHeight d < realHeight r) :
    balance (.Node (.Node ll lv (.Node c cv d dc) lc) v r h0) = none := by
  have el := height_eq_real Hl
  have er := height_eq_real Hr
  have elc : lc = ((realHeight ll ⊔ (realHeight c ⊔ realHeight d + 1) + 1 : Nat) : Int) := by
    simpa using el
  rw [avlInv_Node] at Hl
  obtain ⟨Hll, Hlr, hlc, dll, dlr, bll, blr⟩ := Hl
  have ell := height_eq_real Hll
  have elr := height_eq_real Hlr
  have edc : dc = ((realHeight c ⊔ realHeight d + 1 : Nat) : Int) := by simpa using elr
  rw [avlInv_Node] at Hlr
  obtain ⟨Hc, Hd, hdc, dc1, dc2, bcc, bcd⟩ := Hlr
  have ec := height_eq_real Hc
  have ed := height_eq_real Hd
  have hll0 : realHeight ll = realHeight r := by
    simp only [realHeight_Node] at dll
    omega
  have hhc : realHeight c = realHeight r := by omega
  have bllc : ∀ x ∈ inorder c, lv < x := fun x hx => blr x (by simp [hx])
  have Hchild : AvlInv (node ll lv c) :=
    avlInv_mk_node Hll Hc (by omega) (by omega) bll bllc
  have cneg : ¬(is_avl (node (node ll lv c) cv d) = true) := by
    simp only [node_def, is_avl, height_Node, Bool.and_eq_true, beq_iff_eq,
      decide_eq_true_eq]
    rintro ⟨-, habs⟩
    rw [ell, ec, ed] at habs
    omega
  have c1 : ¬((height r - lc).natAbs ≤ 1) := by rw [er, elc]; omega
  have c2 : ¬(1 < height r - lc) := by rw [er, elc]; omega
  have c2b : height r - lc < 1 := by rw [er, elc]; omega
  have c3 : 0 < dc - height ll := by rw [ell, edc]; omega
  simp only [balance, get_balance, height_Node, if_neg c1, if_neg c2, if_pos c2b,
    if_pos c3, rotate_left, unwrap_Node, unwrap_node,
    Option.bind_eq_bind', Option.some_bind', Option.none_bind',
    if_pos (is_avl_of_inv Hchild), if_neg cneg]

end AVL

namespace AVL

theorem exists_Node_of_pos {α : Type} {t : AVL α} (h : 0 < realHeight t) :
    ∃ l v r c, t = .Node l v r c := by
  cases t with
  | Leaf => simp at h
  | Node l v r c => exact ⟨l, v, r, c, rfl⟩

variable {α : Type} [LinearOrder α]

theorem balance_some_spec {l r : AVL α} {v : α} {h0 : Int} {T : AVL α}
    (Hl : AvlInv l) (Hr : AvlInv r)
    (Bl : ∀ x ∈ inorder l, x < v) (Br : ∀ x ∈ inorder r, v < x)
    (Hd1 : realHeight l ≤ realHeight r + 2) (Hd2 : realHeight r ≤ realHeight l + 2)
    (heq : balance (.Node l v r h0) = some T) :
    AvlInv T ∧ inorder T = inorder l ++ v :: inorder r ∧
    realHeight l ⊔ realHeight r ≤ realHeight T ∧
    realHeight T ≤ (realHeight l ⊔ realHeight r) + 1 ∧
    (realHeight l ≤ realHeight r + 1 → realHeight r ≤ realHeight l + 1 →
      realHeight T = (realHeight l ⊔ realHeight r) + 1) := by
  by_cases hca : realHeight l ≤ realHeight r + 1 ∧ realHeight r ≤ realHeight l + 1
  · obtain ⟨d1, d2⟩ := hca
    rw [balance_easy l v r h0 Hl Hr d1 d2] at heq
    injection heq with heq2
    subst heq2
    refine ⟨avlInv_mk_node Hl Hr d1 d2 Bl Br, rfl, ?_, ?_, ?_⟩
    · simp only [realHeight_node]
      omega
    · simp only [realHeight_node]
      omega
    · intro _ _
      simp only [realHeight_node]
  · have hsplit : realHeight r = realHeight l + 2 ∨ realHeight l = realHeight r + 2 := by
      omega
    rcases hsplit with hgap | hgap
    · have hrpos : 0 < realHeight r := by omega
      obtain ⟨rl, rv, rr, rc, rfl⟩ := exists_Node_of_pos hrpos
      have Hr2 := Hr
      rw [avlInv_Node] at Hr2
      obtain ⟨Hrl, Hrr, -, drl, drr, -, -⟩ := Hr2
      have hgap2 : realHeight rl ⊔ realHeight rr + 1 = realHeight l + 2 := by
        simpa using hgap
      by_cases hcase : realHeight rl ≤ realHeight rr
      · obtain ⟨heq2, HT⟩ := balance_right_single l v rl rv rr rc h0 Hl Hr Bl Br hgap2 hcase
        rw [heq2] at heq
        injection heq with heq3
        subst heq3
        refine ⟨HT, by simp, ?_, ?_, ?_⟩ <;>
          (simp only [realHeight_node, realHeight_Node]; intros; omega)
      · push_neg at hcase
        have hrlpos : 0 < realHeight rl := by omega
        obtain ⟨a, av, b, ac, rfl⟩ := exists_Node_of_pos hrlpos
        have Hrl2 := Hrl
        rw [avlInv_Node] at Hrl2
        obtain ⟨Ha, Hb, -, da1, da2, -, -⟩ := Hrl2
        have hgap3 : (realHeight a ⊔ realHeight b + 1) ⊔ realHeight rr + 1
            = realHeight l + 2 := by simpa using hgap2
        have hgt : realHeight rr < realHeight a ⊔ realHeight b + 1 := by simpa using hcase
        by_cases hsucc : realHeight l ≤ realHeight a
        · obtain ⟨heq2, HT⟩ :=
            balance_right_double l v a av b ac rv rr rc h0 Hl Hr Bl Br hgap3 hgt hsucc
          rw [heq2] at heq
          injection heq with heq3
          subst heq3
          refine ⟨HT, by simp, ?_, ?_, ?_⟩ <;>
            (simp only [realHeight_node, realHeight_Node]; intros; omega)
        · push_neg at hsucc
          rw [balance_right_double_fail l v a av b ac rv rr rc h0 Hl Hr hgap3 hgt hsucc]
            at heq
          cases heq
    · have hlpos : 0 < realHeight l := by omega
      obtain ⟨ll, lv, lr, lc, rfl⟩ := exists_Node_of_pos hlpos
      have Hl2 := Hl
      rw [avlInv_Node] at Hl2
      obtain ⟨Hll, Hlr, -, dll, dlr, -, -⟩ := Hl2
      have hgap2 : realHeight ll ⊔ realHeight lr + 1 = realHeight r + 2 := by
        simpa using hgap
      by_cases hcase : realHeight lr ≤ realHeight ll
      · obtain ⟨heq2, HT⟩ := balance_left_single ll lv lr lc v r h0 Hl Hr Bl Br hgap2 hcase
        rw [heq2] at heq
        injection heq with heq3
        subst heq3
        refine ⟨HT, by simp, ?_, ?_, ?_⟩ <;>
          (simp only [realHeight_node, realHeight_Node]; intros; omega)
      · push_neg at hcase
        have hlrpos : 0 < realHeight lr := by omega
        obtain ⟨c, cv, d, dcc, rfl⟩ := exists_Node_of_pos hlrpos
        have Hlr2 := Hlr
        rw [avlInv_Node] at Hlr2
        obtain ⟨Hc, Hd, -, dc1, dc2, -, -⟩ := Hlr2
        have hgap3 : realHeight ll ⊔ (realHeight c ⊔ realHeight d + 1) + 1
            = realHeight r + 2 := by simpa using hgap2
        have hgt : realHeight ll < realHeight c ⊔ realHeight d + 1 := by simpa using hcase
        by_cases hsucc : realHeight r ≤ realHeight d
        · obtain ⟨heq2, HT⟩ :=
            balance_left_double ll lv c cv d dcc lc v r h0 Hl Hr Bl Br hgap3 hgt hsucc
          rw [heq2] at heq
          injection heq with heq3
          subst heq3
          refine ⟨HT, by simp, ?_, ?_, ?_⟩ <;>
            (simp only [realHeight_node, realHeight_Node]; intros; omega)
        · push_neg at hsucc
          rw [balance_left_double_fail ll lv c cv d dcc lc v r h0 Hl Hr hgap3 hgt hsucc]
            at heq
          cases heq

end AVL

namespace AVL

variable {α : Type} [LinearOrder α]

theorem balance_of_inv {l : AVL α} {x : α} {r : AVL α} {c : Int}
    (H : AvlInv (.Node l x r c)) : balance (.Node l x r c) = some (.Node l x r c) := by
  have H2 := H
  rw [avlInv_Node] at H2
  obtain ⟨Hl, Hr, hh, d1, d2, -, -⟩ := H2
  have hb := balance_easy l x r c Hl Hr d1 d2
  rwa [node_def, ← hh] at hb

theorem insert_some_spec {v : α} {t : AVL α} :
    AvlInv t → ∀ {t2 : AVL α}, insert t v = some t2 →
    AvlInv t2 ∧ (∀ y, y ∈ inorder t2 ↔ y ∈ inorder t ∨ y = v) ∧
    realHeight t ≤ realHeight t2 ∧ realHeight t2 ≤ realHeight t + 1 := by
  induction t with
  | Leaf =>
    intro H t2 heq
    simp only [insert, is_avl, if_true] at heq
    have hs : singleton v = .Node .Leaf v .Leaf (max (height (.Leaf : AVL α)) (height (.Leaf : AVL α)) + 1) := rfl
    rw [hs, balance_easy .Leaf v .Leaf _ trivial trivial (by simp) (by simp)] at heq
    injection heq with heq2
    subst heq2
    refine ⟨avlInv_mk_node trivial trivial (by simp) (by simp) (by simp) (by simp), ?_, ?_, ?_⟩
    · intro y
      simp [node_def]
    · simp
    · simp
  | Node l x r c ihl ihr =>
    intro H t2 heq
    have H2 := H
    rw [avlInv_Node] at H2
    obtain ⟨Hl, Hr, hh, d1, d2, bl, br⟩ := H2
    simp only [insert, if_pos (is_avl_of_inv H)] at heq
    by_cases hvx : v < x
    · rw [if_pos hvx] at heq
      simp only [Option.bind_eq_bind', Option.bind_eq_some'] at heq
      obtain ⟨l2, hl2, hbal⟩ := heq
      obtain ⟨Hl2, mem2, hb1, hb2⟩ := ihl Hl hl2
      have Bl2 : ∀ y ∈ inorder l2, y < x := by
        intro y hy
        rcases (mem2 y).mp hy with hy2 | rfl
        · exact bl y hy2
        · exact hvx
      obtain ⟨HT, hlist, hm1, hm2, hcond⟩ :=
        balance_some_spec Hl2 Hr Bl2 br (by omega) (by omega) hbal
      refine ⟨HT, ?_, ?_, ?_⟩
      · intro y
        rw [hlist]
        simp only [inorder_Node, List.mem_append, List.mem_cons, mem2 y]
        constructor
        · rintro ((h | rfl) | rfl | h) <;> tauto
        · rintro ((h | rfl | h) | rfl) <;> tauto
      · simp only [realHeight_Node]
        rcases (by omega : realHeight l2 = realHeight l ∨ realHeight l2 = realHeight l + 1)
          with h2 | h2
        · have hEq := hcond (by omega) (by omega)
          omega
        · by_cases h3 : realHeight l2 ≤ realHeight r + 1
          · have hEq := hcond h3 (by omega)
            omega
          · omega
      · simp only [realHeight_Node]
        omega
    · by_cases hxv : x < v
      · rw [if_neg hvx, if_pos hxv] at heq
        simp only [Option.bind_eq_bind', Option.bind_eq_some'] at heq
        obtain ⟨r2, hr2, hbal⟩ := heq
        obtain ⟨Hr2, mem2, hb1, hb2⟩ := ihr Hr hr2
        have Br2 : ∀ y ∈ inorder r2, x < y := by
          intro y hy
          rcases (mem2 y).mp hy with hy2 | rfl
          · exact br y hy2
          · exact hxv
        obtain ⟨HT, hlist, hm1, hm2, hcond⟩ :=
          balance_some_spec Hl Hr2 bl Br2 (by omega) (by omega) hbal
        refine ⟨HT, ?_, ?_, ?_⟩
        · intro y
          rw [hlist]
          simp only [inorder_Node, List.mem_append, List.mem_cons, mem2 y]
          constructor
          · rintro (h | rfl | h | rfl) <;> tauto
          · rintro ((h | rfl | h) | rfl) <;> tauto
        · simp only [realHeight_Node]
          rcases (by omega : realHeight r2 = realHeight r ∨ realHeight r2 = realHeight r + 1)
            with h2 | h2
          · have hEq := hcond (by omega) (by omega)
            omega
          · by_cases h3 : realHeight r2 ≤ realHeight l + 1
            · have hEq := hcond (by omega) h3
              omega
            · omega
        · simp only [realHeight_Node]
          omega
      · have hvxeq : v = x := le_antisymm (not_lt.mp hxv) (not_lt.mp hvx)
        rw [if_neg hvx, if_neg hxv, balance_of_inv H] at heq
        injection heq with heq2
        subst heq2
        refine ⟨H, ?_, le_refl _, by omega⟩
        intro y
        subst hvxeq
        simp only [inorder_Node, List.mem_append, List.mem_cons]
        tauto

end AVL

namespace AVL

theorem balance_Leaf {α : Type} : balance (.Leaf : AVL α) = some .Leaf := rfl

variable {α : Type} [LinearOrder α]

theorem balance_of_avl {t : AVL α} (H : AvlInv t) : balance t = some t := by
  cases t with
  | Leaf => rfl
  | Node l x r c => exact balance_of_inv H

theorem remove_leftmost_some_spec {t : AVL α} :
    AvlInv t → ∀ {res : Option α} {t2 : AVL α}, remove_leftmost t = some (res, t2) →
    AvlInv t2 ∧ realHeight t2 ≤ realHeight t ∧ realHeight t ≤ realHeight t2 + 1 ∧
    ((res = none ∧ t = .Leaf ∧ t2 = .Leaf) ∨
     (∃ m, res = some m ∧ inorder t = m :: inorder t2)) := by
  induction t with
  | Leaf =>
    intro H res t2 heq
    simp only [remove_leftmost, is_avl, if_true, balance_Leaf,
      Option.bind_eq_bind', Option.some_bind', Option.some.injEq, Prod.mk.injEq] at heq
    obtain ⟨rfl, rfl⟩ := heq
    exact ⟨trivial, by simp, by simp, Or.inl ⟨rfl, rfl, rfl⟩⟩
  | Node l x r c ihl ihr =>
    intro H res t2 heq
    have H2 := H
    rw [avlInv_Node] at H2
    obtain ⟨Hl, Hr, hh, d1, d2, bl, br⟩ := H2
    simp only [remove_leftmost, if_pos (is_avl_of_inv H),
      Option.bind_eq_bind', Option.bind_eq_some'] at heq
    obtain ⟨⟨res1, l2⟩, hl2, hrest⟩ := heq
    obtain ⟨Hl2, hb1, hb2, hdisj⟩ := ihl Hl hl2
    rcases res1 with - | m
    · simp only [] at hrest
      rcases hdisj with ⟨-, rfl, rfl⟩ | ⟨m, hm, -⟩
      · rw [balance_of_avl Hr] at hrest
        simp only [Option.bind_eq_bind', Option.some_bind', Option.some.injEq,
          Prod.mk.injEq] at hrest
        obtain ⟨rfl, rfl⟩ := hrest
        refine ⟨Hr, by simp only [realHeight_Node, realHeight_Leaf]; omega,
          by simp only [realHeight_Node, realHeight_Leaf]; omega, Or.inr ⟨x, rfl, by simp⟩⟩
      · cases hm
    · simp only [] at hrest
      rcases hdisj with ⟨hcon, -, -⟩ | ⟨m2, hm2, hlst⟩
      · cases hcon
      · obtain rfl : m = m2 := Option.some.inj hm2
        rw [node_def] at hrest
        simp only [Option.bind_eq_some'] at hrest
        obtain ⟨T, hbal, hpair⟩ := hrest
        simp only [Option.some.injEq, Prod.mk.injEq] at hpair
        obtain ⟨rfl, rfl⟩ := hpair
        have Bl2 : ∀ y ∈ inorder l2, y < x := by
          intro y hy
          exact bl y (by rw [hlst]; exact List.mem_cons_of_mem m hy)
        obtain ⟨HT, hlist, hm1, hm2b, hcond⟩ :=
          balance_some_spec Hl2 Hr Bl2 br (by omega) (by omega) hbal
        refine ⟨HT, ?_, ?_, Or.inr ⟨m, rfl, ?_⟩⟩
        · simp only [realHeight_Node]
          omega
        · simp only [realHeight_Node]
          rcases (by omega : realHeight l2 = realHeight l ∨ realHeight l2 + 1 = realHeight l)
            with h2 | h2
          · have hEq := hcond (by omega) (by omega)
            omega
          · by_cases h3 : realHeight r ≤ realHeight l2 + 1
            · have hEq := hcond (by omega) h3
              omega
            · omega
        · rw [hlist]
          simp only [inorder_Node, hlst]
          simp

theorem remove_rightmost_some_spec {t : AVL α} :
    AvlInv t → ∀ {res : Option α} {t2 : AVL α}, remove_rightmost t = some (res, t2) →
    AvlInv t2 ∧ realHeight t2 ≤ realHeight t ∧ realHeight t ≤ realHeight t2 + 1 ∧
    ((res = none ∧ t = .Leaf ∧ t2 = .Leaf) ∨
     (∃ m, res = some m ∧ inorder t = inorder t2 ++ [m])) := by
  induction t with
  | Leaf =>
    intro H res t2 heq
    simp only [remove_rightmost, is_avl, if_true, balance_Leaf,
      Option.bind_eq_bind', Option.some_bind', Option.some.injEq, Prod.mk.injEq] at heq
    obtain ⟨rfl, rfl⟩ := heq
    exact ⟨trivial, by simp, by simp, Or.inl ⟨rfl, rfl, rfl⟩⟩
  | Node l x r c ihl ihr =>
    intro H res t2 heq
    have H2 := H
    rw [avlInv_Node] at H2
    obtain ⟨Hl, Hr, hh, d1, d2, bl, br⟩ := H2
    simp only [remove_rightmost, if_pos (is_avl_of_inv H),
      Option.bind_eq_bind', Option.bind_eq_some'] at heq
    obtain ⟨⟨res1, r2⟩, hr2, hrest⟩ := heq
    obtain ⟨Hr2, hb1, hb2, hdisj⟩ := ihr Hr hr2
    rcases res1 with - | m
    · simp only [] at hrest
      rcases hdisj with ⟨-, rfl, rfl⟩ | ⟨m, hm, -⟩
      · rw [balance_of_avl Hl] at hrest
        simp only [Option.bind_eq_bind', Option.some_bind', Option.some.injEq,
          Prod.mk.injEq] at hrest
        obtain ⟨rfl, rfl⟩ := hrest
        refine ⟨Hl, by simp only [realHeight_Node, realHeight_Leaf]; omega,
          by simp only [realHeight_Node, realHeight_Leaf]; omega, Or.inr ⟨x, rfl, by simp⟩⟩
      · cases hm
    · simp only [] at hrest
      rcases hdisj with ⟨hcon, -, -⟩ | ⟨m2, hm2, hlst⟩
      · cases hcon
      · obtain rfl : m = m2 := Option.some.inj hm2
        rw [node_def] at hrest
        simp only [Option.bind_eq_some'] at hrest
        obtain ⟨T, hbal, hpair⟩ := hrest
        simp only [Option.some.injEq, Prod.mk.injEq] at hpair
        obtain ⟨rfl, rfl⟩ := hpair
        have Br2 : ∀ y ∈ inorder r2, x < y := by
          intro y hy
          exact br y (by rw [hlst]; exact List.mem_append_left _ hy)
        obtain ⟨HT, hlist, hm1, hm2b, hcond⟩ :=
          balance_some_spec Hl Hr2 bl Br2 (by omega) (by omega) hbal
        refine ⟨HT, ?_, ?_, Or.inr ⟨m, rfl, ?_⟩⟩
        · simp only [realHeight_Node]
          omega
        · simp only [realHeight_Node]
          rcases (by omega : realHeight r2 = realHeight r ∨ realHeight r2 + 1 = realHeight r)
            with h2 | h2
          · have hEq := hcond (by omega) (by omega)
            omega
          · by_cases h3 : realHeight l ≤ realHeight r2 + 1
            · have hEq := hcond h3 (by omega)
              omega
            · omega
        · rw [hlist]
          simp only [inorder_Node, hlst]
          simp

end AVL

namespace AVL

variable {α : Type} [LinearOrder α]

theorem delete_some_spec {v : α} {t : AVL α} :
    AvlInv t → ∀ {t2 : AVL α}, delete t v = some t2 →
    AvlInv t2 ∧ (∀ y ∈ inorder t2, y ∈ inorder t) ∧
    realHeight t2 ≤ realHeight t ∧ realHeight t ≤ realHeight t2 + 1 := by
  induction t with
  | Leaf =>
    intro H t2 heq
    simp only [delete, is_avl, if_true, balance_Leaf, Option.some.injEq] at heq
    subst heq
    exact ⟨trivial, by simp, by simp, by simp⟩
  | Node l x r c ihl ihr =>
    intro H t2 heq
    have H2 := H
    rw [avlInv_Node] at H2
    obtain ⟨Hl, Hr, hh, d1, d2, bl, br⟩ := H2
    simp only [delete, if_pos (is_avl_of_inv H)] at heq
    by_cases hvx : v < x
    · rw [if_pos hvx] at heq
      simp only [Option.bind_eq_bind', Option.bind_eq_some'] at heq
      obtain ⟨l2, hl2, hbal⟩ := heq
      obtain ⟨Hl2, mem2, hb1, hb2⟩ := ihl Hl hl2
      have Bl2 : ∀ y ∈ inorder l2, y < x := fun y hy => bl y (mem2 y hy)
      rw [node_def] at hbal
      obtain ⟨HT, hlist, hm1, hm2, hcond⟩ :=
        balance_some_spec Hl2 Hr Bl2 br (by omega) (by omega) hbal
      refine ⟨HT, ?_, ?_, ?_⟩
      · intro y hy
        rw [hlist] at hy
        simp only [List.mem_append, List.mem_cons] at hy
        simp only [inorder_Node, List.mem_append, List.mem_cons]
        rcases hy with hy | rfl | hy
        · exact Or.inl (mem2 y hy)
        · tauto
        · tauto
      · simp only [realHeight_Node]
        omega
      · simp only [realHeight_Node]
        rcases (by omega : realHeight l2 = realHeight l ∨ realHeight l2 + 1 = realHeight l)
          with h2 | h2
        · have hEq := hcond (by omega) (by omega)
          omega
        · by_cases h3 : realHeight r ≤ realHeight l2 + 1
          · have hEq := hcond (by omega) h3
            omega
          · omega
    · by_cases hxv : x < v
      · rw [if_neg hvx, if_pos hxv] at heq
        simp only [Option.bind_eq_bind', Option.bind_eq_some'] at heq
        obtain ⟨r2, hr2, hbal⟩ := heq
        obtain ⟨Hr2, mem2, hb1, hb2⟩ := ihr Hr hr2
        have Br2 : ∀ y ∈ inorder r2, x < y := fun y hy => br y (mem2 y hy)
        rw [node_def] at hbal
        obtain ⟨HT, hlist, hm1, hm2, hcond⟩ :=
          balance_some_spec Hl Hr2 bl Br2 (by omega) (by omega) hbal
        refine ⟨HT, ?_, ?_, ?_⟩
        · intro y hy
          rw [hlist] at hy
          simp only [List.mem_append, List.mem_cons] at hy
          simp only [inorder_Node, List.mem_append, List.mem_cons]
          rcases hy with hy | rfl | hy
          · tauto
          · tauto
          · exact Or.inr (Or.inr (mem2 y hy))
        · simp only [realHeight_Node]
          omega
        · simp only [realHeight_Node]
          rcases (by omega : realHeight r2 = realHeight r ∨ realHeight r2 + 1 = realHeight r)
            with h2 | h2
          · have hEq := hcond (by omega) (by omega)
            omega
          · by_cases h3 : realHeight l ≤ realHeight r2 + 1
            · have hEq := hcond h3 (by omega)
              omega
            · omega
      · rw [if_neg hvx, if_neg hxv] at heq
        simp only [Option.bind_eq_bind', Option.bind_eq_some'] at heq
        obtain ⟨⟨res1, r2⟩, hrm, hrest⟩ := heq
        obtain ⟨Hr2, hc1, hc2, hdisj⟩ := remove_leftmost_some_spec Hr hrm
        rcases res1 with - | m
        · simp only [] at hrest
          rcases hdisj with ⟨-, rfl, rfl⟩ | ⟨m, hm, -⟩
          · simp only [Option.bind_eq_some'] at hrest
            obtain ⟨⟨res2, l2⟩, hrm2, hrest2⟩ := hrest
            obtain ⟨Hl2, hd1, hd2, hdisj2⟩ := remove_rightmost_some_spec Hl hrm2
            rcases res2 with - | m
            · simp only [] at hrest2
              rw [balance_Leaf, Option.some.injEq] at hrest2
              subst hrest2
              rcases hdisj2 with ⟨-, rfl, rfl⟩ | ⟨m, hm, -⟩
              · exact ⟨trivial, by simp, by simp, by simp⟩
              · cases hm
            · simp only [] at hrest2
              rcases hdisj2 with ⟨hcon, -, -⟩ | ⟨m2, hm2, hlst⟩
              · cases hcon
              · obtain rfl : m = m2 := Option.some.inj hm2
                have Bl2 : ∀ y ∈ inorder l2, y < m := by
                  have hs := sorted_inorder Hl
                  rw [hlst] at hs
                  intro y hy
                  exact (List.pairwise_append.mp hs).2.2 y hy m (by simp)
                rw [node_def] at hrest2
                simp only [realHeight_Leaf, realHeight_Node] at d1 d2
                obtain ⟨HT, hlist, hm1, hm2b, hcond⟩ :=
                  balance_some_spec Hl2 avlInv_Leaf Bl2 (by simp)
                    (by simp only [realHeight_Leaf]; omega)
                    (by simp only [realHeight_Leaf]; omega) hrest2
                simp only [realHeight_Leaf] at hm1 hm2b hcond
                refine ⟨HT, ?_, ?_, ?_⟩
                · intro y hy
                  rw [hlist] at hy
                  simp only [inorder_Leaf, List.mem_append, List.mem_cons,
                    List.not_mem_nil, or_false] at hy
                  simp only [inorder_Node, List.mem_append, List.mem_cons]
                  rcases hy with hy | rfl
                  · exact Or.inl (by rw [hlst]; exact List.mem_append_left _ hy)
                  · exact Or.inl (by rw [hlst]; simp)
                · simp only [realHeight_Node, realHeight_Leaf]
                  omega
                · simp only [realHeight_Node, realHeight_Leaf]
                  have hEq := hcond (by omega) (by omega)
                  omega
          · cases hm
        · simp only [] at hrest
          rcases hdisj with ⟨hcon, -, -⟩ | ⟨m2, hm2, hlst⟩
          · cases hcon
          · obtain rfl : m = m2 := Option.some.inj hm2
            have hmem : m ∈ inorder r := by rw [hlst]; simp
            have Blm : ∀ y ∈ inorder l, y < m := fun y hy => lt_trans (bl y hy) (br m hmem)
            have Brm : ∀ y ∈ inorder r2, m < y := by
              have hs := sorted_inorder Hr
              rw [hlst] at hs
              intro y hy
              exact (List.sorted_cons.mp hs).1 y hy
            rw [node_def] at hrest
            obtain ⟨HT, hlist, hm1, hm2b, hcond⟩ :=
              balance_some_spec Hl Hr2 Blm Brm (by omega) (by omega) hrest
            refine ⟨HT, ?_, ?_, ?_⟩
            · intro y hy
              rw [hlist] at hy
              simp only [List.mem_append, List.mem_cons] at hy
              simp only [inorder_Node, List.mem_append, List.mem_cons]
              rcases hy with hy | rfl | hy
              · tauto
              · exact Or.inr (Or.inr hmem)
              · exact Or.inr (Or.inr (by rw [hlst]; exact List.mem_cons_of_mem _ hy))
            · simp only [realHeight_Node]
              omega
            · simp only [realHeight_Node]
              rcases (by omega : realHeight r2 = realHeight r ∨ realHeight r2 + 1 = realHeight r)
                with h2 | h2
              · have hEq := hcond (by omega) (by omega)
                omega
              · by_cases h3 : realHeight l ≤ realHeight r2 + 1
                · have hEq := hcond h3 (by omega)
                  omega
                · omega

end AVL

namespace AVL

variable {α : Type} [LinearOrder α]

theorem delete_not_mem {v : α} {t : AVL α} (H : AvlInv t) (hnm : v ∉ inorder t) :
    delete t v = some t := by
  induction t with
  | Leaf => rfl
  | Node l x r c ihl ihr =>
    have H2 := H
    rw [avlInv_Node] at H2
    obtain ⟨Hl, Hr, hh, d1, d2, bl, br⟩ := H2
    simp only [inorder_Node, List.mem_append, List.mem_cons, not_or] at hnm
    obtain ⟨hnl, hnx, hnr⟩ := hnm
    simp only [delete, if_pos (is_avl_of_inv H)]
    by_cases hvx : v < x
    · rw [if_pos hvx, ihl Hl hnl]
      simp only [Option.bind_eq_bind', Option.some_bind']
      rw [node_def, ← hh]
      exact balance_of_inv H
    · by_cases hxv : x < v
      · rw [if_neg hvx, if_pos hxv, ihr Hr hnr]
        simp only [Option.bind_eq_bind', Option.some_bind']
        rw [node_def, ← hh]
        exact balance_of_inv H
      · exact absurd (le_antisymm (not_lt.mp hvx) (not_lt.mp hxv)).symm hnx

theorem insert_mem_noop {v : α} {t : AVL α} (H : AvlInv t) (hm : v ∈ inorder t) :
    insert t v = some t := by
  induction t with
  | Leaf => simp at hm
  | Node l x r c ihl ihr =>
    have H2 := H
    rw [avlInv_Node] at H2
    obtain ⟨Hl, Hr, hh, d1, d2, bl, br⟩ := H2
    simp only [insert, if_pos (is_avl_of_inv H)]
    by_cases hvx : v < x
    · have hvl : v ∈ inorder l := by
        simp only [inorder_Node, List.mem_append, List.mem_cons] at hm
        rcases hm with hm | rfl | hm
        · exact hm
        · exact absurd hvx (lt_irrefl v)
        · exact absurd (lt_trans hvx (br v hm)) (lt_irrefl v)
      rw [if_pos hvx, ihl Hl hvl]
      simp only [Option.bind_eq_bind', Option.some_bind']
      exact balance_of_inv H
    · by_cases hxv : x < v
      · have hvr : v ∈ inorder r := by
          simp only [inorder_Node, List.mem_append, List.mem_cons] at hm
          rcases hm with hm | rfl | hm
          · exact absurd (lt_trans (bl v hm) hxv) (lt_irrefl v)
          · exact absurd hxv (lt_irrefl v)
          · exact hm
        rw [if_neg hvx, if_pos hxv, ihr Hr hvr]
        simp only [Option.bind_eq_bind', Option.some_bind']
        exact balance_of_inv H
      · rw [if_neg hvx, if_neg hxv]
        exact balance_of_inv H

end AVL

/-- One mutating operation of the spec's lifecycle: `insert` or `delete`. -/
inductive Op (α : Type) where
  | ins : α → Op α
  | del : α → Op α

/-- Apply one operation (`none` embeds a panic). -/
def applyOp {α : Type} [LinearOrder α] (t : AVL α) : Op α → Option (AVL α)
  | .ins v => AVL.insert t v
  | .del v => AVL.delete t v

/-- Apply a sequence of operations left to right (`none` embeds a panic). -/
def applyOps {α : Type} [LinearOrder α] : AVL α → List (Op α) → Option (AVL α)
  | t, [] => some t
  | t, op :: rest => (applyOp t op).bind fun t2 => applyOps t2 rest

namespace AVL

variable {α : Type} [LinearOrder α]

/-- Claim C1: for every tree satisfying the three AVL invariants (as decided
by the code's own `is_avl_full`) and every sequence of insert/delete
operations, whenever an operation sequence returns, the resulting tree
satisfies all three invariants again; since this holds for every prefix of
the sequence, the invariants hold after each operation returns. -/
theorem ops_preserve_invariants (t : AVL α) (ops : List (Op α)) (t2 : AVL α)
    (H : is_avl_full t = true) (heq : applyOps t ops = some t2) :
    is_avl_full t2 = true := by
  induction ops generalizing t with
  | nil =>
    simp only [applyOps, Option.some.injEq] at heq
    subst heq
    exact H
  | cons op rest ih =>
    simp only [applyOps, Option.bind_eq_bind', Option.bind_eq_some'] at heq
    obtain ⟨t1, h1, h2⟩ := heq
    have H2 := is_avl_full_iff_inv.mp H
    have H1 : AvlInv t1 := by
      cases op with
      | ins v => exact (insert_some_spec H2 h1).1
      | del v => exact (delete_some_spec H2 h1).1
    exact ih t1 (is_avl_full_iff_inv.mpr H1) h2

theorem ops_preserve_invariants_witness :
    is_avl_full (AVL.Node .Leaf (2 : ℕ) .Leaf 1) = true :=
  ops_preserve_invariants .Leaf [Op.ins 1, Op.ins 2, Op.del 1]
    (AVL.Node .Leaf (2 : ℕ) .Leaf 1) (by decide) (by decide)

/-- Claim C4: deleting a value that is not in the tree returns the tree
exactly unchanged — same structure, values and cached heights. -/
theorem delete_absent_noop (t : AVL α) (v : α) (H : is_avl_full t = true)
    (hnm : v ∉ inorder t) : delete t v = some t :=
  delete_not_mem (is_avl_full_iff_inv.mp H) hnm

theorem delete_absent_noop_witness :
    delete (AVL.Node .Leaf (1 : ℕ) .Leaf 1) 2 = some (AVL.Node .Leaf 1 .Leaf 1) :=
  delete_absent_noop (AVL.Node .Leaf (1 : ℕ) .Leaf 1) 2 (by decide) (by decide)

/-- Claim C5: inserting a value already present is a no-op (the resulting
tree is the very same tree), and hence inserting the same value twice gives
the same tree — in particular the same in-order sequence — as inserting it
once. -/
theorem insert_present_noop (t : AVL α) (v : α) (H : is_avl_full t = true) :
    (v ∈ inorder t → insert t v = some t) ∧
    (∀ t2, insert t v = some t2 → insert t2 v = some t2) := by
  have H2 := is_avl_full_iff_inv.mp H
  refine ⟨fun hm => insert_mem_noop H2 hm, fun t2 h2 => ?_⟩
  obtain ⟨HT, mem2, -, -⟩ := insert_some_spec H2 h2
  exact insert_mem_noop HT ((mem2 v).mpr (Or.inr rfl))

theorem insert_present_noop_witness :
    insert (AVL.Node .Leaf (1 : ℕ) .Leaf 1) 1 = some (AVL.Node .Leaf 1 .Leaf 1) :=
  (insert_present_noop (AVL.Node .Leaf (1 : ℕ) .Leaf 1) 1 (by decide)).1 (by decide)

/-- Claim C6 (code bug): the claim says no public operation panics on
well-formed input, but `insert` does: the tree below is reached by inserting
`0, 4, 1, 5, 2` into an empty tree and satisfies `is_avl_full`, yet
inserting `3` fails the `assert!(self.is_avl())` inside `rotate_right`
(the intermediate tree of the right-left double rotation has balance factor
2), i.e. the embedded operation returns `none` (panic). -/
theorem insert_panics_on_valid_tree :
    is_avl_full (AVL.Node (.Node .Leaf (0 : ℕ) .Leaf 1) 1
      (.Node (.Node .Leaf 2 .Leaf 1) 4 (.Node .Leaf 5 .Leaf 1) 2) 3) = true ∧
    insert (AVL.Node (.Node .Leaf (0 : ℕ) .Leaf 1) 1
      (.Node (.Node .Leaf 2 .Leaf 1) 4 (.Node .Leaf 5 .Leaf 1) 2) 3) 3 = none := by
  decide

end AVL

/-- Insert each element of a list in order into a tree (`none` embeds a
panic of some insertion). -/
def insertList {α : Type} [LinearOrder α] (t : AVL α) : List α → Option (AVL α)
  | [] => some t
  | x :: rest => (AVL.insert t x).bind fun t2 => insertList t2 rest

namespace AVL

variable {α : Type} [LinearOrder α]

theorem contains_iff_mem {v : α} {t : AVL α} (H : AvlInv t) :
    contains t v = true ↔ v ∈ inorder t := by
  induction t with
  | Leaf => simp [contains]
  | Node l x r c ihl ihr =>
    have H2 := H
    rw [avlInv_Node] at H2
    obtain ⟨Hl, Hr, hh, d1, d2, bl, br⟩ := H2
    simp only [contains, inorder_Node, List.mem_append, List.mem_cons]
    by_cases hvx : v < x
    · rw [if_pos hvx, ihl Hl]
      constructor
      · exact fun h => Or.inl h
      · rintro (h | rfl | h)
        · exact h
        · exact absurd hvx (lt_irrefl v)
        · exact absurd (lt_trans hvx (br v h)) (lt_irrefl v)
    · by_cases hxv : x < v
      · rw [if_neg hvx, if_pos hxv, ihr Hr]
        constructor
        · exact fun h => Or.inr (Or.inr h)
        · rintro (h | rfl | h)
          · exact absurd (lt_trans (bl v h) hxv) (lt_irrefl v)
          · exact absurd hxv (lt_irrefl v)
          · exact h
      · rw [if_neg hvx, if_neg hxv]
        have : v = x := le_antisymm (not_lt.mp hxv) (not_lt.mp hvx)
        simp [this]

theorem insertList_mem {xs : List α} :
    ∀ {t T : AVL α}, AvlInv t → insertList t xs = some T →
    AvlInv T ∧ ∀ v, (v ∈ inorder T ↔ v ∈ inorder t ∨ v ∈ xs) := by
  induction xs with
  | nil =>
    intro t T H heq
    simp only [insertList, Option.some.injEq] at heq
    subst heq
    exact ⟨H, by simp⟩
  | cons x rest ih =>
    intro t T H heq
    simp only [insertList, Option.bind_eq_bind', Option.bind_eq_some'] at heq
    obtain ⟨t1, h1, h2⟩ := heq
    obtain ⟨H1, mem1, -, -⟩ := insert_some_spec H h1
    obtain ⟨HT, memT⟩ := ih H1 h2
    refine ⟨HT, fun v => ?_⟩
    rw [memT v, mem1 v]
    simp only [List.mem_cons]
    tauto

/-- Claim C2 (amended): whenever inserting all values of a list into an
initially empty tree completes without panicking, the in-order traversal of
the result is strictly sorted with no duplicates and holds exactly the
elements of the list, and `contains` is true for every inserted value. -/
theorem insertList_spec (xs : List α) (T : AVL α)
    (heq : insertList .Leaf xs = some T) :
    List.Sorted (· < ·) (inorder T) ∧ (inorder T).Nodup ∧
    (∀ v, v ∈ inorder T ↔ v ∈ xs) ∧ (∀ v ∈ xs, contains T v = true) := by
  obtain ⟨HT, memT⟩ := insertList_mem avlInv_Leaf heq
  have hs := sorted_inorder HT
  have hmem : ∀ v, v ∈ inorder T ↔ v ∈ xs := by
    intro v
    rw [memT v]
    simp
  exact ⟨hs, hs.nodup, hmem,
    fun v hv => (contains_iff_mem HT).mpr ((hmem v).mpr hv)⟩

theorem insertList_spec_witness :
    (inorder (AVL.Node (.Node .Leaf (1 : ℕ) .Leaf 1) 2 (.Node .Leaf 3 .Leaf 1) 2)).Nodup ∧
    contains (AVL.Node (.Node .Leaf (1 : ℕ) .Leaf 1) 2 (.Node .Leaf 3 .Leaf 1) 2) 1 = true := by
  obtain ⟨-, hnd, -, hc⟩ :=
    insertList_spec [3, 1, 2]
      (AVL.Node (.Node .Leaf (1 : ℕ) .Leaf 1) 2 (.Node .Leaf 3 .Leaf 1) 2) (by decide)
  exact ⟨hnd, hc 1 (by decide)⟩

/-- Claim C2 (counterexample to the claim as stated): inserting the list
`[0, 4, 1, 5, 2, 3]` into an initially empty tree does not produce a tree at
all — the last insertion panics — so no resulting traversal can enumerate
the sorted deduplicated elements, and `contains` cannot hold for the
inserted values. -/
theorem insertList_counterexample :
    ¬ ∃ T : AVL ℕ, insertList .Leaf [0, 4, 1, 5, 2, 3] = some T ∧
      List.Sorted (· < ·) (inorder T) ∧
      (∀ v, v ∈ inorder T ↔ v ∈ [0, 4, 1, 5, 2, 3]) ∧
      (∀ v ∈ [0, 4, 1, 5, 2, 3], contains T v = true) := by
  rintro ⟨T, hT, -⟩
  rw [show insertList (.Leaf : AVL ℕ) [0, 4, 1, 5, 2, 3] = none from by decide] at hT
  cases hT

end AVL

namespace AVL

/-- Minimal node count of an AVL-balanced tree of a given height
(`msize (h+2) = msize (h+1) + msize h + 1`). -/
def msize : Nat → Nat
  | 0 => 0
  | 1 => 1
  | n + 2 => msize (n + 1) + msize n + 1

/-- Linear-time pair recursion computing `(msize n + 1, msize (n+1) + 1)`
(a Fibonacci sequence), written with a bare `Nat.rec` so that the kernel can
evaluate it quickly. -/
def fibPair (n : Nat) : Nat × Nat :=
  Nat.rec (1, 2) (fun _ p => (p.2, p.1 + p.2)) n

/-- `fibS n = msize n + 1`, the Fibonacci lower bound for `size + 1`. -/
def fibS (n : Nat) : Nat := (fibPair n).1

theorem fibS_add_two (n : Nat) : fibS (n + 2) = fibS n + fibS (n + 1) := rfl

theorem msize_fibS : ∀ n : Nat, msize n + 1 = fibS n := by
  have key : ∀ n : Nat, msize n + 1 = fibS n ∧ msize (n + 1) + 1 = fibS (n + 1) := by
    intro n
    induction n with
    | zero => exact ⟨rfl, rfl⟩
    | succ k ih =>
      refine ⟨ih.2, ?_⟩
      have hm : msize (k + 2) = msize (k + 1) + msize k + 1 := rfl
      have hm2 : msize (k + 1 + 1) = msize (k + 1) + msize k + 1 := rfl
      rw [hm, fibS_add_two]
      omega
  exact fun n => (key n).1

theorem fibS_le_succ (n : Nat) : fibS n ≤ fibS (n + 1) := by
  have key : ∀ m : Nat, fibS m ≤ fibS (m + 1) ∧ fibS (m + 1) ≤ fibS (m + 2) := by
    intro m
    induction m with
    | zero => exact ⟨by decide, by decide⟩
    | succ k ih =>
      refine ⟨ih.2, ?_⟩
      rw [fibS_add_two (k + 1)]
      omega
  exact (key n).1

theorem fibS_mono : Monotone fibS :=
  monotone_nat_of_le_succ fibS_le_succ

theorem balanced_Node {α : Type} {l : AVL α} {v : α} {r : AVL α} {h : Int} :
    Balanced (.Node l v r h) ↔
      Balanced l ∧ Balanced r ∧
      realHeight l ≤ realHeight r + 1 ∧ realHeight r ≤ realHeight l + 1 := by
  simp [Balanced]

theorem balanced_of_inv {α : Type} [LinearOrder α] {t : AVL α} (H : AvlInv t) :
    Balanced t := by
  induction t with
  | Leaf => trivial
  | Node l v r c ihl ihr =>
    rw [avlInv_Node] at H
    obtain ⟨Hl, Hr, -, d1, d2, -, -⟩ := H
    exact balanced_Node.mpr ⟨ihl Hl, ihr Hr, d1, d2⟩

/-- Every balanced tree of height `h` has at least `fibS h - 1` nodes: the
classical Fibonacci lower bound for AVL trees. -/
theorem fibS_le_size {α : Type} : ∀ {t : AVL α}, Balanced t →
    fibS (realHeight t) ≤ size t + 1 := by
  intro t
  induction t with
  | Leaf =>
    intro _
    simp only [realHeight_Leaf, size_Leaf]
    decide
  | Node l v r c ihl ihr =>
    intro H
    rw [balanced_Node] at H
    obtain ⟨Hl, Hr, d1, d2⟩ := H
    rw [realHeight_Node, size_Node]
    rcases Nat.le_total (realHeight l) (realHeight r) with hle | hle
    · rw [Nat.max_eq_right hle]
      cases hr : realHeight r with
      | zero =>
        have : fibS (0 + 1) = 2 := rfl
        omega
      | succ k =>
        have e1 : fibS (k + 1 + 1) = fibS k + fibS (k + 1) := fibS_add_two k
        have h2 : fibS (k + 1) ≤ size r + 1 := hr ▸ ihr Hr
        have h3 : fibS k ≤ size l + 1 := by
          refine le_trans (fibS_mono ?_) (ihl Hl)
          omega
        omega
    · rw [Nat.max_eq_left hle]
      cases hl : realHeight l with
      | zero =>
        have : fibS (0 + 1) = 2 := rfl
        omega
      | succ k =>
        have e1 : fibS (k + 1 + 1) = fibS k + fibS (k + 1) := fibS_add_two k
        have h2 : fibS (k + 1) ≤ size l + 1 := hl ▸ ihl Hl
        have h3 : fibS k ≤ size r + 1 := by
          refine le_trans (fibS_mono ?_) (ihr Hr)
          omega
        omega

/-- The minimal ("Fibonacci") AVL tree of height `n` whose labels are the
interval `[lo, lo + msize n)` in search order. -/
def fibTree : Nat → Nat → AVL Nat
  | 0, _ => .Leaf
  | 1, lo => .Node .Leaf lo .Leaf 1
  | n + 2, lo =>
    .Node (fibTree (n + 1) lo) (lo + msize (n + 1))
      (fibTree n (lo + msize (n + 1) + 1)) ((n : Int) + 2)

theorem fibTree_spec : ∀ n lo,
    realHeight (fibTree n lo) = n ∧ size (fibTree n lo) = msize n ∧
    AvlInv (fibTree n lo) ∧
    (∀ x ∈ inorder (fibTree n lo), lo ≤ x ∧ x < lo + msize n) := by
  have key : ∀ n, (∀ lo,
      realHeight (fibTree n lo) = n ∧ size (fibTree n lo) = msize n ∧
      AvlInv (fibTree n lo) ∧
      (∀ x ∈ inorder (fibTree n lo), lo ≤ x ∧ x < lo + msize n)) ∧ (∀ lo,
      realHeight (fibTree (n + 1) lo) = n + 1 ∧
      size (fibTree (n + 1) lo) = msize (n + 1) ∧
      AvlInv (fibTree (n + 1) lo) ∧
      (∀ x ∈ inorder (fibTree (n + 1) lo), lo ≤ x ∧ x < lo + msize (n + 1))) := by
    intro n
    induction n with
    | zero =>
      constructor
      · intro lo
        exact ⟨rfl, rfl, avlInv_Leaf, by simp [fibTree]⟩
      · intro lo
        refine ⟨rfl, rfl, ?_, ?_⟩
        · rw [show fibTree 1 lo = .Node .Leaf lo .Leaf 1 from rfl, avlInv_Node]
          refine ⟨avlInv_Leaf, avlInv_Leaf, by simp, by simp, by simp, by simp, by simp⟩
        · intro x hx
          simp only [show fibTree 1 lo = .Node .Leaf lo .Leaf 1 from rfl,
            inorder_Node, inorder_Leaf, List.nil_append, List.mem_cons,
            List.not_mem_nil, or_false] at hx
          subst hx
          have h1 : msize (0 + 1) = 1 := rfl
          omega
    | succ k ih =>
      obtain ⟨ih1, ih2⟩ := ih
      refine ⟨ih2, ?_⟩
      intro lo
      obtain ⟨e1, s1, H1, b1⟩ := ih2 lo
      obtain ⟨e2, s2, H2, b2⟩ := ih1 (lo + msize (k + 1) + 1)
      have hdef : fibTree (k + 2) lo =
          .Node (fibTree (k + 1) lo) (lo + msize (k + 1))
            (fibTree k (lo + msize (k + 1) + 1)) ((k : Int) + 2) := rfl
      have hm : msize (k + 2) = msize (k + 1) + msize k + 1 := rfl
      have hm2 : msize (k + 1 + 1) = msize (k + 1) + msize k + 1 := rfl
      refine ⟨?_, ?_, ?_, ?_⟩
      · rw [hdef, realHeight_Node, e1, e2]
        omega
      · rw [hdef, size_Node, s1, s2, hm]
      · rw [hdef, avlInv_Node]
        refine ⟨H1, H2, ?_, by omega, by omega, ?_, ?_⟩
        · rw [height_eq_real H1, height_eq_real H2, e1, e2]
          push_cast
          omega
        · intro x hx
          exact (b1 x hx).2
        · intro x hx
          have := (b2 x hx).1
          omega
      · intro x hx
        rw [hdef] at hx
        simp only [inorder_Node, List.mem_append, List.mem_cons] at hx
        rcases hx with hx | rfl | hx
        · have := b1 x hx
          omega
        · omega
        · have := b2 x hx
          omega
  exact fun n => (key n).1

end AVL

namespace AVL

theorem fibS_ratio : ∀ h : Nat, 5 ≤ h → 21 * fibS h ≤ 13 * fibS (h + 1) := by
  have key : ∀ k : Nat,
      21 * fibS (k + 5) ≤ 13 * fibS (k + 6) ∧ 21 * fibS (k + 6) ≤ 13 * fibS (k + 7) := by
    intro k
    induction k with
    | zero => exact ⟨by decide, by decide⟩
    | succ m ih =>
      refine ⟨ih.2, ?_⟩
      have a1 : fibS (m + 1 + 6) = fibS (m + 5) + fibS (m + 6) := fibS_add_two (m + 5)
      have a2 : fibS (m + 1 + 7) = fibS (m + 6) + fibS (m + 7) := fibS_add_two (m + 6)
      have b1 := ih.1
      have b2 := ih.2
      omega
  intro h hh
  obtain ⟨k, rfl⟩ : ∃ k, h = k + 5 := ⟨h - 5, by omega⟩
  exact (key k).1

theorem fibS_pow_step : ∀ h : Nat, 12 ≤ h →
    2 ^ 40 * (fibS h + 1) ^ 29 ≤ (fibS (h + 2) + 1) ^ 29 := by
  intro h hh
  have hFG : fibS (h + 2) = fibS h + fibS (h + 1) := fibS_add_two h
  have hratio : 21 * fibS h ≤ 13 * fibS (h + 1) := fibS_ratio h (by omega)
  have hF377 : 377 ≤ fibS h := by
    calc 377 = fibS 12 := by decide
    _ ≤ fibS h := fibS_mono hh
  rw [hFG]
  have knum : 2 ^ 40 * 4914 ^ 29 ≤ 12818 ^ 29 := by decide
  have key1 : 13 * 377 * (fibS h + 1) ≤ 13 * 378 * fibS h := by omega
  have key2 : 34 * (377 * fibS h) ≤ 13 * 377 * (fibS h + fibS (h + 1) + 1) := by omega
  have p1 : (13 * 377 * (fibS h + 1)) ^ 29 ≤ (13 * 378 * fibS h) ^ 29 :=
    Nat.pow_le_pow_left key1 29
  have p2 : (34 * (377 * fibS h)) ^ 29 ≤ (13 * 377 * (fibS h + fibS (h + 1) + 1)) ^ 29 :=
    Nat.pow_le_pow_left key2 29
  have p3 : 2 ^ 40 * (13 * 378 * fibS h) ^ 29 ≤ (34 * (377 * fibS h)) ^ 29 := by
    have e1 : (13 * 378 * fibS h) ^ 29 = 4914 ^ 29 * fibS h ^ 29 := by
      rw [show (13 : ℕ) * 378 = 4914 from rfl, mul_pow]
    have e2 : (34 * (377 * fibS h)) ^ 29 = 12818 ^ 29 * fibS h ^ 29 := by
      rw [← mul_assoc, show (34 : ℕ) * 377 = 12818 from rfl, mul_pow]
    rw [e1, e2, ← mul_assoc]
    exact Nat.mul_le_mul_right _ knum
  have main : (13 * 377) ^ 29 * (2 ^ 40 * (fibS h + 1) ^ 29) ≤
      (13 * 377) ^ 29 * (fibS h + fibS (h + 1) + 1) ^ 29 := by
    calc (13 * 377) ^ 29 * (2 ^ 40 * (fibS h + 1) ^ 29)
        = 2 ^ 40 * ((13 * 377) ^ 29 * (fibS h + 1) ^ 29) := mul_left_comm _ _ _
      _ = 2 ^ 40 * (13 * 377 * (fibS h + 1)) ^ 29 := by rw [← mul_pow]
      _ ≤ 2 ^ 40 * (13 * 378 * fibS h) ^ 29 := Nat.mul_le_mul_left _ p1
      _ ≤ (34 * (377 * fibS h)) ^ 29 := p3
      _ ≤ (13 * 377 * (fibS h + fibS (h + 1) + 1)) ^ 29 := p2
      _ = (13 * 377) ^ 29 * (fibS h + fibS (h + 1) + 1) ^ 29 := by rw [mul_pow]
  exact Nat.le_of_mul_le_mul_left main (by positivity)

theorem two_pow_le_fibS : ∀ h : Nat, 2 ^ (20 * h) ≤ (fibS h + 1) ^ 29 := by
  have key : ∀ h : Nat,
      2 ^ (20 * h) ≤ (fibS h + 1) ^ 29 ∧ 2 ^ (20 * (h + 1)) ≤ (fibS (h + 1) + 1) ^ 29 := by
    intro h
    induction h with
    | zero => exact ⟨by decide, by decide⟩
    | succ m ih =>
      refine ⟨ih.2, ?_⟩
      rcases Nat.lt_or_ge m 12 with hm | hm
      · interval_cases m <;> decide
      · calc 2 ^ (20 * (m + 1 + 1))
            = 2 ^ 40 * 2 ^ (20 * m) := by
              rw [show 20 * (m + 1 + 1) = 40 + 20 * m from by ring, pow_add]
          _ ≤ 2 ^ 40 * (fibS m + 1) ^ 29 := Nat.mul_le_mul_left _ ih.1
          _ ≤ (fibS (m + 2) + 1) ^ 29 := fibS_pow_step m hm
  exact fun h => (key h).1

end AVL

namespace AVL

/-- Claim C7 (amended): every tree satisfying the balance invariant with `n`
nodes has height at most `1.45 * log2 (n + 2)`. -/
theorem height_le_log_bound {α : Type} (t : AVL α) (H : Balanced t) :
    (realHeight t : ℝ) ≤ 1.45 * Real.logb 2 ((size t : ℝ) + 2) := by
  have hnat : 2 ^ (20 * realHeight t) ≤ (size t + 2) ^ 29 := by
    refine le_trans (two_pow_le_fibS (realHeight t)) (Nat.pow_le_pow_left ?_ 29)
    have := fibS_le_size H
    omega
  have hreal : ((2 : ℝ)) ^ (20 * realHeight t) ≤ ((size t : ℝ) + 2) ^ 29 := by
    exact_mod_cast hnat
  have hpos : (0 : ℝ) < 2 ^ (20 * realHeight t) := by positivity
  have hlog := Real.logb_le_logb_of_le one_lt_two hpos hreal
  rw [Real.logb_pow, Real.logb_pow, Real.logb_self_eq_one one_lt_two] at hlog
  push_cast at hlog
  linarith

theorem height_le_log_bound_witness :
    (realHeight (AVL.Node .Leaf (7 : ℕ) .Leaf 1) : ℝ) ≤
      1.45 * Real.logb 2 ((size (AVL.Node .Leaf (7 : ℕ) .Leaf 1) : ℝ) + 2) :=
  height_le_log_bound (AVL.Node .Leaf (7 : ℕ) .Leaf 1)
    (balanced_Node.mpr ⟨trivial, trivial, by decide, by decide⟩)

set_option maxRecDepth 100000 in
theorem fibS_2500_bound : fibS 2500 + 1 ≤ 2 ^ 1736 := by decide

/-- Claim C7 (counterexample to the 1.44 constant): the minimal AVL tree of
height 2500 satisfies all three AVL invariants (hence in particular the
balance invariant), yet its height exceeds `1.44 * log2 (n + 2)`. -/
theorem height_bound_counterexample :
    is_avl_full (fibTree 2500 0) = true ∧
    ¬((realHeight (fibTree 2500 0) : ℝ) ≤
      1.44 * Real.logb 2 ((size (fibTree 2500 0) : ℝ) + 2)) := by
  obtain ⟨hh, hs, hinv, -⟩ := fibTree_spec 2500 0
  refine ⟨is_avl_full_iff_inv.mpr hinv, ?_⟩
  rw [hh, hs]
  have hb : msize 2500 + 2 ≤ 2 ^ 1736 := by
    have h1 := msize_fibS 2500
    have hf := fibS_2500_bound
    omega
  have hreal : ((msize 2500 : ℝ)) + 2 ≤ (2 : ℝ) ^ (1736 : ℕ) := by
    have h2 : ((msize 2500 + 2 : ℕ) : ℝ) ≤ ((2 ^ 1736 : ℕ) : ℝ) := Nat.cast_le.mpr hb
    rw [Nat.cast_add, Nat.cast_pow, Nat.cast_ofNat] at h2
    exact h2
  have hpos : (0 : ℝ) < (msize 2500 : ℝ) + 2 := by
    have hn : (0 : ℝ) ≤ (msize 2500 : ℝ) := Nat.cast_nonneg _
    linarith
  have hlog := Real.logb_le_logb_of_le one_lt_two hpos hreal
  rw [Real.logb_pow, Real.logb_self_eq_one one_lt_two] at hlog
  intro habs
  push_cast at habs hlog
  linarith

end AVL
